import Mathlib

/-!
Verification of `utils.py` from the Graph-Algorithms-Project repository.

Modelling conventions for the shallow embedding:
* Python strings are `List Char`; `len`, `+`, slicing become list operations.
* Python floats are `ℚ` (exact arithmetic; binary rounding of floats is
  idealised away, all numbers involved are small integers or exact ratios).
* Python ints are `ℕ` or `ℤ` as appropriate.
* Code that can raise an exception returns `Option`; `none` models the raise.
* The external similarity oracle (`get_weights`, built on nltk/sklearn and
  declared an external collaborator by the design document) is a parameter
  `weights : ℕ → ℕ → ℚ` giving the matrix entry `weights[i][j]`.
-/

namespace BookGraphs

/-- Whitespace test used by Python `str.split()` / `str.strip()`. -/
def wsp (c : Char) : Bool := c.isWhitespace

/-- Python `text.split()` (no argument): split on whitespace and drop the
empty pieces, so words are the maximal whitespace-free runs. -/
def pywords (cs : List Char) : List (List Char) :=
  (List.splitOnP wsp cs).filter (fun w => !w.isEmpty)

/-- Python `s.strip()`: drop leading and trailing whitespace. -/
def pystrip (cs : List Char) : List Char :=
  ((cs.dropWhile wsp).reverse.dropWhile wsp).reverse

/-- Loop of `split_text(words, chars_per_page)` from utils.py, with the
`pages` accumulator and `current_page` made explicit.  The Python truthiness
test `if current_page:` is nonemptiness. -/
def splitTextGo (chars_per_page : ℕ) :
    List (List Char) → List (List Char) → List Char → List (List Char)
  | [], pages, current =>
      if current ≠ [] then pages ++ [pystrip current] else pages
  | w :: ws, pages, current =>
      if current.length + w.length + 1 ≤ chars_per_page then
        splitTextGo chars_per_page ws pages (current ++ w ++ [' '])
      else
        splitTextGo chars_per_page ws (pages ++ [pystrip current]) (w ++ [' '])

/-- `split_text(words, chars_per_page)` from utils.py. -/
def split_text (words : List (List Char)) (chars_per_page : ℕ) : List (List Char) :=
  splitTextGo chars_per_page words [] []

/-! Word-level characterisation of `split_text`: the `current_page` string is
always the concatenation of a group of words, each followed by one space. -/

/-- Length of the `current_page` string holding the word group `g`. -/
def wordsLen (g : List (List Char)) : ℕ := (g.map (fun w => w.length + 1)).sum

/-- The `current_page` string holding the word group `g`. -/
def flat (g : List (List Char)) : List Char := (g.map (fun w => w ++ [' '])).flatten

/-- Word groups corresponding to the pages `split_text` produces. -/
def chunksGo (b : ℕ) : List (List Char) → List (List Char) → List (List (List Char))
  | [], g => if g ≠ [] then [g] else []
  | w :: ws, g =>
      if wordsLen g + w.length + 1 ≤ b then chunksGo b ws (g ++ [w])
      else g :: chunksGo b ws [w]

theorem length_flat (g : List (List Char)) : (flat g).length = wordsLen g := by
  induction g with
  | nil => rfl
  | cons w g ih => simp [flat, wordsLen] at ih ⊢; omega

theorem flat_append_single (g : List (List Char)) (w : List Char) :
    flat (g ++ [w]) = flat g ++ (w ++ [' ']) := by
  simp [flat]

theorem flat_eq_nil_iff (g : List (List Char)) : flat g = [] ↔ g = [] := by
  cases g with
  | nil => simp [flat]
  | cons w g => simp [flat]

theorem splitTextGo_eq (b : ℕ) (ws : List (List Char)) :
    ∀ (pages : List (List Char)) (g : List (List Char)),
      splitTextGo b ws pages (flat g) =
        pages ++ (chunksGo b ws g).map (fun h => pystrip (flat h)) := by
  induction ws with
  | nil =>
      intro pages g
      by_cases hg : g = []
      · subst hg; simp [splitTextGo, chunksGo, flat]
      · have hf : flat g ≠ [] := by simpa [flat_eq_nil_iff]
        simp [splitTextGo, chunksGo, hg, hf]
  | cons w ws ih =>
      intro pages g
      have hlen : (flat g).length = wordsLen g := length_flat g
      by_cases hcond : wordsLen g + w.length + 1 ≤ b
      · have : flat g ++ w ++ [' '] = flat (g ++ [w]) := by
          rw [flat_append_single]; simp
        simp only [splitTextGo, hlen, if_pos hcond, this, ih]
        simp [chunksGo, hcond]
      · have hw : w ++ [' '] = flat [w] := by simp [flat]
        simp only [splitTextGo, hlen, if_pos, if_neg hcond, hw, ih]
        simp [chunksGo, hcond]

theorem split_text_eq_chunks (words : List (List Char)) (b : ℕ) :
    split_text words b = (chunksGo b words []).map (fun h => pystrip (flat h)) := by
  have h := splitTextGo_eq b words [] []
  simpa [split_text, flat] using h

theorem chunksGo_flatten (b : ℕ) (ws : List (List Char)) :
    ∀ g, (chunksGo b ws g).flatten = g ++ ws := by
  induction ws with
  | nil => intro g; by_cases hg : g = [] <;> simp [chunksGo, hg]
  | cons w ws ih =>
      intro g
      by_cases hcond : wordsLen g + w.length + 1 ≤ b
      · simp [chunksGo, hcond, ih]
      · simp [chunksGo, hcond, ih]

/-- A word as produced by Python `text.split()`: nonempty and free of
whitespace characters. -/
def CleanWord (w : List Char) : Prop := w ≠ [] ∧ ∀ c ∈ w, wsp c = false

theorem intercalate_cons_ne_nil (s : List Char) (a : List Char)
    (l : List (List Char)) (hl : l ≠ []) :
    List.intercalate s (a :: l) = a ++ s ++ List.intercalate s l := by
  cases l with
  | nil => exact absurd rfl hl
  | cons b t => simp [List.intercalate, List.intersperse]

theorem flat_eq_intercalate (g : List (List Char)) (hg : g ≠ []) :
    flat g = List.intercalate [' '] g ++ [' '] := by
  induction g with
  | nil => exact absurd rfl hg
  | cons w g ih =>
      cases g with
      | nil => simp [flat, List.intercalate, List.intersperse]
      | cons v g0 =>
          have hstep : flat (w :: (v :: g0)) = w ++ [' '] ++ flat (v :: g0) := by
            simp [flat]
          rw [hstep, ih (by simp),
            intercalate_cons_ne_nil [' '] w (v :: g0) (by simp)]
          simp

theorem intercalate_ne_nil_head (g : List (List Char)) (hg : g ≠ [])
    (hclean : ∀ w ∈ g, CleanWord w) :
    ∃ c t, List.intercalate [' '] g = c :: t ∧ wsp c = false := by
  cases g with
  | nil => exact absurd rfl hg
  | cons w g =>
      obtain ⟨hw, hws⟩ := hclean w (by simp)
      cases g with
      | nil =>
          cases w with
          | nil => exact absurd rfl hw
          | cons c t => exact ⟨c, t, by simp [List.intercalate, List.intersperse],
              hws c (by simp)⟩
      | cons v g =>
          rw [intercalate_cons_ne_nil _ _ _ (by simp)]
          cases w with
          | nil => exact absurd rfl hw
          | cons c t =>
              exact ⟨c, t ++ [' '] ++ List.intercalate [' '] (v :: g),
                by simp, hws c (by simp)⟩

theorem intercalate_rev_head (g : List (List Char)) (hg : g ≠ [])
    (hclean : ∀ w ∈ g, CleanWord w) :
    ∃ c t, (List.intercalate [' '] g).reverse = c :: t ∧ wsp c = false := by
  induction g with
  | nil => exact absurd rfl hg
  | cons w g ih =>
      cases g with
      | nil =>
          obtain ⟨hw, hws⟩ := hclean w (by simp)
          have : List.intercalate [' '] [w] = w := by
            simp [List.intercalate, List.intersperse]
          rw [this]
          cases hrev : w.reverse with
          | nil => exact absurd (by simpa using congrArg List.reverse hrev) hw
          | cons c t =>
              refine ⟨c, t, rfl, hws c ?_⟩
              have : c ∈ w.reverse := by rw [hrev]; simp
              simpa using this
      | cons v g0 =>
          obtain ⟨c, t, hct, hc⟩ := ih (by simp)
            (fun u hu => hclean u (by simp [hu]))
          rw [intercalate_cons_ne_nil _ _ _ (by simp)]
          exact ⟨c, t ++ [' '] ++ w.reverse, by simp [hct], hc⟩

theorem pystrip_flat (g : List (List Char)) (hclean : ∀ w ∈ g, CleanWord w) :
    pystrip (flat g) = List.intercalate [' '] g := by
  by_cases hg : g = []
  · subst hg; rfl
  · rw [flat_eq_intercalate g hg]
    obtain ⟨c, t, hct, hc⟩ := intercalate_ne_nil_head g hg hclean
    obtain ⟨d, r, hdr, hd⟩ := intercalate_rev_head g hg hclean
    unfold pystrip
    rw [hct]
    have h1 : List.dropWhile wsp ((c :: t) ++ [' ']) = (c :: t) ++ [' '] := by
      simp [List.dropWhile_cons, hc]
    rw [h1]
    have h2 : ((c :: t) ++ [' ']).reverse = ' ' :: (c :: t).reverse := by simp
    rw [h2]
    have h3 : List.dropWhile wsp (' ' :: (c :: t).reverse) =
        List.dropWhile wsp (c :: t).reverse := by
      simp [List.dropWhile_cons, wsp]
    rw [h3, ← hct, hdr]
    have h4 : List.dropWhile wsp (d :: r) = d :: r := by
      simp [List.dropWhile_cons, hd]
    rw [h4, ← hdr]
    simp

theorem intercalate_append_ne_nil (s : List Char) (a b : List (List Char))
    (ha : a ≠ []) (hb : b ≠ []) :
    List.intercalate s (a ++ b) =
      List.intercalate s a ++ s ++ List.intercalate s b := by
  induction a with
  | nil => exact absurd rfl ha
  | cons x a ih =>
      cases a with
      | nil =>
          rw [List.singleton_append, intercalate_cons_ne_nil s x b hb]
          simp [List.intercalate, List.intersperse]
      | cons y a0 =>
          have h1 : (y :: a0) ++ b ≠ [] := by simp
          rw [List.cons_append, intercalate_cons_ne_nil s x ((y :: a0) ++ b) h1,
            ih (by simp), intercalate_cons_ne_nil s x (y :: a0) (by simp)]
          simp

theorem intercalate_map_flatten (gs : List (List (List Char)))
    (h : ∀ g ∈ gs, g ≠ []) :
    List.intercalate [' '] (gs.map (List.intercalate [' '])) =
      List.intercalate [' '] gs.flatten := by
  induction gs with
  | nil => rfl
  | cons g gs ih =>
      cases gs with
      | nil => simp [List.intercalate, List.intersperse]
      | cons g2 gs0 =>
          have hg : g ≠ [] := h g (by simp)
          have hflat : (g2 :: gs0).flatten ≠ [] := by
            have : g2 ≠ [] := h g2 (by simp)
            cases g2 with
            | nil => exact absurd rfl this
            | cons w t => simp
          have h1 : List.intercalate [' '] ((g :: g2 :: gs0).flatten) =
              List.intercalate [' '] g ++ [' '] ++
                List.intercalate [' '] (g2 :: gs0).flatten := by
            rw [List.flatten_cons]
            exact intercalate_append_ne_nil [' '] g (g2 :: gs0).flatten hg hflat
          rw [List.map_cons, intercalate_cons_ne_nil _ _ _ (by simp), h1,
            ih (fun x hx => h x (by simp [hx]))]

theorem flatten_filter_ne_nil (l : List (List (List Char))) :
    (l.filter (fun g => !g.isEmpty)).flatten = l.flatten := by
  induction l with
  | nil => rfl
  | cons g l ih =>
      cases g with
      | nil => simpa [List.filter_cons] using ih
      | cons w t => simp [List.filter_cons, ih]

theorem intercalate_eq_nil_iff (g : List (List Char))
    (hclean : ∀ w ∈ g, CleanWord w) :
    List.intercalate [' '] g = [] ↔ g = [] := by
  constructor
  · intro h
    by_contra hg
    obtain ⟨c, t, hct, _⟩ := intercalate_ne_nil_head g hg hclean
    rw [h] at hct
    exact List.noConfusion hct
  · intro h; subst h; rfl

/-- If every word is clean, `split_text` loses no words: its pages, with the
(at most one) empty page removed, joined by single spaces, give back the
space-joined word list. -/
theorem split_text_clean_join (words : List (List Char)) (b : ℕ)
    (hclean : ∀ w ∈ words, CleanWord w) :
    List.intercalate [' '] ((split_text words b).filter (fun p => !p.isEmpty)) =
      List.intercalate [' '] words := by
  rw [split_text_eq_chunks]
  have hchunk_words : ∀ g ∈ chunksGo b words [], ∀ w ∈ g, CleanWord w := by
    intro g hg w hw
    apply hclean
    have : w ∈ (chunksGo b words []).flatten := List.mem_flatten.2 ⟨g, hg, hw⟩
    rwa [chunksGo_flatten, List.nil_append] at this
  have hmap : (chunksGo b words []).map (fun h => pystrip (flat h)) =
      (chunksGo b words []).map (List.intercalate [' ']) := by
    apply List.map_congr_left
    intro g hg
    exact pystrip_flat g (hchunk_words g hg)
  rw [hmap, List.filter_map]
  have hfc : List.filter ((fun p => !p.isEmpty) ∘ List.intercalate [' '])
        (chunksGo b words []) =
      List.filter (fun g => !g.isEmpty) (chunksGo b words []) := by
    apply List.filter_congr
    intro g hg
    simp only [Function.comp_apply]
    rcases (intercalate_eq_nil_iff g (hchunk_words g hg)) with ⟨h1, h2⟩
    by_cases hgnil : g = []
    · subst hgnil; rfl
    · have hne : List.intercalate [' '] g ≠ [] := fun hc => hgnil (h1 hc)
      have e1 : (List.intercalate [' '] g).isEmpty = false := by
        rcases hx : List.intercalate [' '] g with _ | ⟨c, t⟩
        · exact absurd hx hne
        · rfl
      have e2 : g.isEmpty = false := by
        cases g with
        | nil => exact absurd rfl hgnil
        | cons _ _ => rfl
      rw [e1, e2]
  rw [hfc, intercalate_map_flatten]
  · rw [flatten_filter_ne_nil, chunksGo_flatten, List.nil_append]
  · intro g hg
    have := List.of_mem_filter hg
    simpa [List.isEmpty_iff] using this

theorem splitOnP_wsp_clean (cs : List Char) :
    ∀ w ∈ List.splitOnP wsp cs, ∀ c ∈ w, wsp c = false := by
  induction cs with
  | nil =>
      intro w hw
      rw [List.splitOnP_nil] at hw
      simp only [List.mem_singleton] at hw
      subst hw
      simp
  | cons c cs ih =>
      intro w hw d hd
      rw [List.splitOnP_cons] at hw
      by_cases hc : wsp c
      · rw [if_pos hc] at hw
        rcases List.mem_cons.1 hw with h | h
        · subst h; simp at hd
        · exact ih w h d hd
      · rw [if_neg hc] at hw
        rcases hsplit : List.splitOnP wsp cs with _ | ⟨h0, t⟩
        · exact absurd hsplit (List.splitOnP_ne_nil _ _)
        · rw [hsplit, List.modifyHead_cons] at hw
          rcases List.mem_cons.1 hw with h | h
          · subst h
            rcases List.mem_cons.1 hd with h2 | h2
            · subst h2; simpa using hc
            · exact ih h0 (by rw [hsplit]; simp) d h2
          · exact ih w (by rw [hsplit]; simp [h]) d hd

/-- Every word `text.split()` produces is nonempty and whitespace-free. -/
theorem pywords_clean (cs : List Char) : ∀ w ∈ pywords cs, CleanWord w := by
  intro w hw
  have hmem := List.mem_of_mem_filter hw
  have hpred := List.of_mem_filter hw
  refine ⟨?_, splitOnP_wsp_clean cs w hmem⟩
  intro hnil
  subst hnil
  simp at hpred

/-! The `while` loop of `split_into_pages` and its termination. -/

/-- Budget increment computed by the `while` loop of `split_into_pages`.
In the source this is `len(" ".join(pages[-overflow])) // 100 + 1` where
`overflow = len(pages) - num_pages`; the negative index `pages[-overflow]`
resolves to `pages[len(pages) - overflow] = pages[num_pages]`, a single page
string, and `" ".join` of a string intersperses single spaces between its
characters. -/
def loopIncrement (pages : List (List Char)) (numPages : ℕ) : ℕ :=
  ((pages.getD numPages []).intersperse ' ').length / 100 + 1

theorem one_le_loopIncrement (pages : List (List Char)) (numPages : ℕ) :
    1 ≤ loopIncrement pages numPages := Nat.le_add_left 1 _

theorem splitTextGo_length_le (b : ℕ) (ws : List (List Char)) :
    ∀ pages current, current.length + wordsLen ws ≤ b →
      (splitTextGo b ws pages current).length ≤ pages.length + 1 := by
  induction ws with
  | nil =>
      intro pages current h
      by_cases hc : current = [] <;> simp [splitTextGo, hc]
  | cons w ws ih =>
      intro pages current h
      have hw : wordsLen (w :: ws) = w.length + 1 + wordsLen ws := by
        simp [wordsLen]
      have hcond : current.length + w.length + 1 ≤ b := by omega
      rw [splitTextGo, if_pos hcond]
      apply ih
      simp only [List.length_append, List.length_cons, List.length_nil]
      omega

/-- With a budget at least the total length of all words (each counted with
its following space), `split_text` produces at most one page. -/
theorem split_text_length_le_one (words : List (List Char)) (b : ℕ)
    (h : wordsLen words ≤ b) : (split_text words b).length ≤ 1 := by
  have := splitTextGo_length_le b words [] [] (by simpa using h)
  simpa [split_text] using this

/-- The `while` loop of `split_into_pages` from utils.py:
`pages = split_text(words, chars_per_page)` is recomputed each round and the
budget grows by `loopIncrement`.  Termination: each round the budget grows by
at least 1, and once it reaches `wordsLen words` the page count is at most
`1 ≤ num_pages`, so the guard fails. -/
def splitLoop (words : List (List Char)) (numPages : ℕ) (hnum : 0 < numPages)
    (budget : ℕ) : List (List Char) :=
  if _h : (split_text words budget).length > numPages then
    splitLoop words numPages hnum
      (budget + loopIncrement (split_text words budget) numPages)
  else split_text words budget
termination_by wordsLen words + 1 - budget
decreasing_by
  have hgt : ¬ wordsLen words ≤ budget := by
    intro hle
    have := split_text_length_le_one words budget hle
    omega
  have hinc : 1 ≤ loopIncrement (split_text words budget) numPages :=
    one_le_loopIncrement _ _
  omega

/-- `split_into_pages(text, num_pages)` from utils.py.  The
`assert num_pages > 0` is modelled by returning `none` (the raised
`AssertionError`) when the bound fails. -/
def split_into_pages (text : List Char) (numPages : ℕ) :
    Option (List (List Char)) :=
  if h : 0 < numPages then
    some (splitLoop (pywords text) numPages h (text.length / numPages + 1))
  else none

/-- Fuel-indexed version of the `while` loop, used to state that the loop
performs only finitely many iterations. -/
def splitLoopFuel (fuel : ℕ) (words : List (List Char))
    (numPages budget : ℕ) : Option (List (List Char)) :=
  match fuel with
  | 0 => none
  | fuel + 1 =>
      if (split_text words budget).length > numPages then
        splitLoopFuel fuel words numPages
          (budget + loopIncrement (split_text words budget) numPages)
      else some (split_text words budget)

theorem splitLoopFuel_correct (words : List (List Char)) (numPages : ℕ)
    (hnum : 0 < numPages) :
    ∀ m budget, wordsLen words + 1 - budget < m →
      splitLoopFuel m words numPages budget =
        some (splitLoop words numPages hnum budget) := by
  intro m
  induction m with
  | zero => intro budget hm; omega
  | succ m ih =>
      intro budget hm
      by_cases hb : (split_text words budget).length > numPages
      · have hgt : ¬ wordsLen words ≤ budget := by
          intro hle
          have := split_text_length_le_one words budget hle
          omega
        have hinc : 1 ≤ loopIncrement (split_text words budget) numPages :=
          one_le_loopIncrement _ _
        rw [splitLoopFuel, if_pos hb, splitLoop, dif_pos hb]
        exact ih _ (by omega)
      · rw [splitLoopFuel, if_neg hb, splitLoop, dif_neg hb]

theorem splitLoop_length_le (words : List (List Char)) (numPages : ℕ)
    (hnum : 0 < numPages) :
    ∀ budget, (splitLoop words numPages hnum budget).length ≤ numPages := by
  have main : ∀ m budget, wordsLen words + 1 - budget ≤ m →
      (splitLoop words numPages hnum budget).length ≤ numPages := by
    intro m
    induction m with
    | zero =>
        intro budget hm
        have hle : wordsLen words ≤ budget := by omega
        have h1 := split_text_length_le_one words budget hle
        rw [splitLoop, dif_neg (by omega)]
        omega
    | succ m ih =>
        intro budget hm
        by_cases hb : (split_text words budget).length > numPages
        · have hgt : ¬ wordsLen words ≤ budget := by
            intro hle
            have := split_text_length_le_one words budget hle
            omega
          have hinc : 1 ≤ loopIncrement (split_text words budget) numPages :=
            one_le_loopIncrement _ _
          rw [splitLoop, dif_pos hb]
          exact ih _ (by omega)
        · rw [splitLoop, dif_neg hb]
          omega
  intro budget
  exact main (wordsLen words + 1 - budget) budget le_rfl

/-- The loop only ever returns some `split_text words b` value. -/
theorem splitLoop_eq_split_text (words : List (List Char)) (numPages : ℕ)
    (hnum : 0 < numPages) :
    ∀ budget, ∃ b2, splitLoop words numPages hnum budget = split_text words b2 := by
  have main : ∀ m budget, wordsLen words + 1 - budget ≤ m →
      ∃ b2, splitLoop words numPages hnum budget = split_text words b2 := by
    intro m
    induction m with
    | zero =>
        intro budget hm
        have hle : wordsLen words ≤ budget := by omega
        have h1 := split_text_length_le_one words budget hle
        rw [splitLoop, dif_neg (by omega)]
        exact ⟨budget, rfl⟩
    | succ m ih =>
        intro budget hm
        by_cases hb : (split_text words budget).length > numPages
        · have hgt : ¬ wordsLen words ≤ budget := by
            intro hle
            have := split_text_length_le_one words budget hle
            omega
          have hinc : 1 ≤ loopIncrement (split_text words budget) numPages :=
            one_le_loopIncrement _ _
          rw [splitLoop, dif_pos hb]
          exact ih _ (by omega)
        · rw [splitLoop, dif_neg hb]
          exact ⟨budget, rfl⟩
  intro budget
  exact main (wordsLen words + 1 - budget) budget le_rfl

/-- The budget increment the spec's sentence describes, stated from the
spec's words for comparison with `loopIncrement` from the code: total length
of the excess pages (the last `count - num_pages` pages) joined with single
spaces, divided by 100 (integer division), plus 1. -/
def claimedIncrement (pages : List (List Char)) (numPages : ℕ) : ℕ :=
  (List.intercalate [' '] (pages.drop numPages)).length / 100 + 1

/-- A 51-character word used as a concrete failing input for the budget
increment comparison. -/
def xWord : List Char := List.replicate 51 'x'

/-- C5: for every text and every num_pages > 0, `split_into_pages` returns
at most `num_pages` pages. -/
theorem C5_page_count_le (text : List Char) (numPages : ℕ)
    (pages : List (List Char))
    (hsome : split_into_pages text numPages = some pages) :
    pages.length ≤ numPages := by
  unfold split_into_pages at hsome
  by_cases h : 0 < numPages
  · rw [dif_pos h] at hsome
    have hp : pages =
        splitLoop (pywords text) numPages h (text.length / numPages + 1) :=
      (Option.some.inj hsome).symm
    rw [hp]
    exact splitLoop_length_le _ _ h _
  · rw [dif_neg h] at hsome
    exact absurd hsome (by simp)

/-- Witness for C5 at text "abc" with num_pages 1. -/
theorem C5_page_count_le_witness :
    split_into_pages ['a', 'b', 'c'] 1 = some [['a', 'b', 'c']] ∧
      ([['a', 'b', 'c']] : List (List Char)).length ≤ 1 := by
  have hs : split_into_pages ['a', 'b', 'c'] 1 = some [['a', 'b', 'c']] := by
    rw [split_into_pages, dif_pos (by decide), splitLoop, dif_neg (by decide)]
    decide
  exact ⟨hs, C5_page_count_le ['a', 'b', 'c'] 1 [['a', 'b', 'c']] hs⟩

/-- C3 (counterexample): at text "ab" with num_pages 2 the code returns the
pages ["", "ab"]; joined with single spaces they give " ab", which is not
the whitespace-normalized input "ab". -/
theorem C3_counterexample :
    (split_into_pages ['a', 'b'] 2).map (List.intercalate [' ']) ≠
      some (List.intercalate [' '] (pywords ['a', 'b'])) := by
  have hs : split_into_pages ['a', 'b'] 2 = some [[], ['a', 'b']] := by
    rw [split_into_pages, dif_pos (by decide), splitLoop, dif_neg (by decide)]
    decide
  rw [hs]
  decide

/-- C3 (amended): for every text and every num_pages > 0, the pages returned
by `split_into_pages`, with empty pages dropped (at most one empty first page
can occur, when a single word overflows the budget), joined with single
spaces, reproduce the whitespace-normalized input text. -/
theorem C3_amended_join_normalized (text : List Char) (numPages : ℕ)
    (pages : List (List Char))
    (hsome : split_into_pages text numPages = some pages) :
    List.intercalate [' '] (pages.filter (fun p => !p.isEmpty)) =
      List.intercalate [' '] (pywords text) := by
  unfold split_into_pages at hsome
  by_cases h : 0 < numPages
  · rw [dif_pos h] at hsome
    have hp : pages =
        splitLoop (pywords text) numPages h (text.length / numPages + 1) :=
      (Option.some.inj hsome).symm
    obtain ⟨b2, hb2⟩ := splitLoop_eq_split_text (pywords text) numPages h
      (text.length / numPages + 1)
    rw [hp, hb2]
    exact split_text_clean_join (pywords text) b2 (pywords_clean text)
  · rw [dif_neg h] at hsome
    exact absurd hsome (by simp)

/-- Witness for C3 amended at text "ab" with num_pages 2. -/
theorem C3_amended_join_normalized_witness :
    split_into_pages ['a', 'b'] 2 = some [[], ['a', 'b']] ∧
      List.intercalate [' ']
          (([[], ['a', 'b']] : List (List Char)).filter (fun p => !p.isEmpty)) =
        List.intercalate [' '] (pywords ['a', 'b']) := by
  have hs : split_into_pages ['a', 'b'] 2 = some [[], ['a', 'b']] := by
    rw [split_into_pages, dif_pos (by decide), splitLoop, dif_neg (by decide)]
    decide
  exact ⟨hs, C3_amended_join_normalized ['a', 'b'] 2 [[], ['a', 'b']] hs⟩

/-- C9: for every text and every num_pages > 0 the budget-correction while
loop performs only finitely many iterations: some finite fuel makes the
fuel-indexed loop return, with the same value `split_into_pages` returns. -/
theorem C9_loop_terminates (text : List Char) (numPages : ℕ)
    (h : 0 < numPages) :
    ∃ fuel pages,
      splitLoopFuel fuel (pywords text) numPages
          (text.length / numPages + 1) = some pages ∧
        split_into_pages text numPages = some pages := by
  refine ⟨wordsLen (pywords text) + 2,
    splitLoop (pywords text) numPages h (text.length / numPages + 1), ?_, ?_⟩
  · exact splitLoopFuel_correct (pywords text) numPages h _ _
      (Nat.lt_succ_of_le (Nat.sub_le _ _))
  · rw [split_into_pages, dif_pos h]

/-- Witness for C9 at text "hi" with num_pages 2. -/
theorem C9_loop_terminates_witness :
    0 < 2 ∧
      ∃ fuel pages,
        splitLoopFuel fuel (pywords ['h', 'i']) 2
            (['h', 'i'].length / 2 + 1) = some pages ∧
          split_into_pages ['h', 'i'] 2 = some pages :=
  ⟨by decide, C9_loop_terminates ['h', 'i'] 2 (by decide)⟩

set_option maxRecDepth 40000 in
/-- C6 (code bug, evaluated at the failing input): for the text made of
three 51-character words and num_pages = 2, the initial budget is 78, the
first `split_text` round yields 3 > 2 pages, and the loop then increases the
budget by `loopIncrement = 2` — computed from the single page
`pages[-overflow] = pages[2]` with spaces interspersed between its 51
characters (length 101) — whereas the claim's formula over the excess pages
joined with single spaces (length 51) gives an increase of 1. -/
theorem C6_increment_at_failing_input :
    (List.intercalate [' '] [xWord, xWord, xWord]).length / 2 + 1 = 78 ∧
      (split_text [xWord, xWord, xWord] 78).length = 3 ∧
        loopIncrement (split_text [xWord, xWord, xWord] 78) 2 = 2 ∧
          claimedIncrement (split_text [xWord, xWord, xWord] 78) 2 = 1 := by
  decide

/-! The Windower: `get_windows(num_pages, window_size)`.  Python float
division and `round` are modelled exactly over `ℚ`. -/

/-- Python `int(x)` on a number: truncation toward zero. -/
def pyint (q : ℚ) : ℤ := if 0 ≤ q then ⌊q⌋ else -⌊-q⌋

/-- Python `round(x)` to an integer: round half to even. -/
def pyround (q : ℚ) : ℤ :=
  if q - ⌊q⌋ < 1 / 2 then ⌊q⌋
  else if 1 / 2 < q - ⌊q⌋ then ⌊q⌋ + 1
  else if Even ⌊q⌋ then ⌊q⌋ else ⌊q⌋ + 1

/-- `get_windows(num_pages, window_size)` from utils.py. -/
def get_windows (num_pages window_size : ℕ) : List (ℤ × ℤ) :=
  if num_pages ≤ window_size then [((0 : ℤ), (num_pages : ℤ))]
  else if num_pages ≤ 2 * window_size then
    [((0 : ℤ), (window_size : ℤ)),
      ((num_pages : ℤ) - (window_size : ℤ), (num_pages : ℤ))]
  else
    let q : ℚ := (num_pages : ℚ) / (window_size : ℚ)
    let n : ℤ := pyint q
    let num_windows : ℤ := if q = (n : ℚ) then n else n + 1
    let offset : ℚ :=
      ((num_windows : ℚ) * (window_size : ℚ) - (num_pages : ℚ)) /
        ((num_windows : ℚ) - 1)
    let overlap : ℤ := pyint offset
    let missing : ℤ := pyround ((offset - (overlap : ℚ)) * ((num_windows : ℚ) - 1))
    (List.range num_windows.toNat).map (fun (i : ℕ) =>
      let start : ℤ := (i : ℤ) * ((window_size : ℤ) - overlap)
      let stop : ℤ := ((i : ℤ) + 1) * (window_size : ℤ) - (i : ℤ) * overlap
      if num_windows - (i : ℤ) ≤ missing then (start - missing, stop - missing)
      else (start, stop))

theorem floor_natCast_div (a b : ℕ) (hb : 0 < b) :
    ⌊(a : ℚ) / (b : ℚ)⌋ = ((a / b : ℕ) : ℤ) := by
  have hbq : (0 : ℚ) < (b : ℚ) := by exact_mod_cast hb
  rw [Int.floor_eq_iff]
  constructor
  · rw [le_div_iff₀ hbq]
    have h := Nat.div_mul_le_self a b
    push_cast
    exact_mod_cast h
  · rw [div_lt_iff₀ hbq]
    have h : a < (a / b + 1) * b := by
      have h1 : a < a / b * b + b := Nat.lt_div_mul_add hb
      calc a < a / b * b + b := h1
        _ = (a / b + 1) * b := by ring
    push_cast
    exact_mod_cast h

theorem natCast_div_eq_iff_dvd (a b : ℕ) (hb : 0 < b) :
    ((a : ℚ) / (b : ℚ) = ((a / b : ℕ) : ℚ)) ↔ b ∣ a := by
  have hbq : (b : ℚ) ≠ 0 := by positivity
  rw [div_eq_iff hbq]
  constructor
  · intro h
    have h2 : a = a / b * b := by exact_mod_cast h
    exact h2 ▸ dvd_mul_left b (a / b)
  · intro h
    have : a / b * b = a := Nat.div_mul_cancel h
    exact_mod_cast this.symm

theorem pyint_nonneg (q : ℚ) (h : 0 ≤ q) : pyint q = ⌊q⌋ := if_pos h

theorem pyround_intCast (k : ℤ) : pyround ((k : ℤ) : ℚ) = k := by
  unfold pyround
  rw [Int.floor_intCast]
  norm_num

theorem pyround_natCast (n : ℕ) : pyround ((n : ℕ) : ℚ) = (n : ℤ) := by
  have h : ((n : ℕ) : ℚ) = (((n : ℕ) : ℤ) : ℚ) := by push_cast; ring
  rw [h, pyround_intCast]

/-- In the third branch of `get_windows` the exact-rational computation
reduces to natural-number arithmetic: `NW = ⌈np / ws⌉` windows,
`overlap = R / (NW - 1)` and `missing = R % (NW - 1)` where
`R = NW * ws - np`. -/
theorem get_windows_third_eq (np ws : ℕ) (hws : 0 < ws) (hbig : 2 * ws < np) :
    ∃ NW ov msg : ℕ,
      3 ≤ NW ∧ msg + 2 ≤ NW ∧
      np ≤ NW * ws ∧ NW * ws < np + ws ∧
      ov * (NW - 1) + msg = NW * ws - np ∧
      get_windows np ws = (List.range NW).map (fun (i : ℕ) =>
        if (NW : ℤ) - (i : ℤ) ≤ (msg : ℤ) then
          ((i : ℤ) * ((ws : ℤ) - (ov : ℤ)) - (msg : ℤ),
            ((i : ℤ) + 1) * (ws : ℤ) - (i : ℤ) * (ov : ℤ) - (msg : ℤ))
        else ((i : ℤ) * ((ws : ℤ) - (ov : ℤ)),
          ((i : ℤ) + 1) * (ws : ℤ) - (i : ℤ) * (ov : ℤ))) := by
  have hq0 : (0 : ℚ) ≤ (np : ℚ) / (ws : ℚ) := by positivity
  have hn : pyint ((np : ℚ) / (ws : ℚ)) = ((np / ws : ℕ) : ℤ) := by
    rw [pyint_nonneg _ hq0, floor_natCast_div np ws hws]
  have hdiv2 : 2 ≤ np / ws := (Nat.le_div_iff_mul_le hws).2 (by omega)
  -- the number of windows
  refine ⟨if ws ∣ np then np / ws else np / ws + 1, ?_⟩
  set NW : ℕ := if ws ∣ np then np / ws else np / ws + 1 with hNWdef
  have hNW3 : 3 ≤ NW := by
    rw [hNWdef]
    by_cases hdvd : ws ∣ np
    · rw [if_pos hdvd]
      obtain ⟨c, hc⟩ := hdvd
      have hcdiv : np / ws = c := by rw [hc]; exact Nat.mul_div_cancel_left c hws
      have : 2 * ws < ws * c := by omega
      have hcgt : 2 < c := by
        by_contra hle
        push_neg at hle
        have : ws * c ≤ ws * 2 := Nat.mul_le_mul_left ws hle
        omega
      omega
    · rw [if_neg hdvd]; omega
  have hE4 : np ≤ NW * ws := by
    rw [hNWdef]
    by_cases hdvd : ws ∣ np
    · rw [if_pos hdvd]
      exact le_of_eq (Nat.div_mul_cancel hdvd).symm
    · rw [if_neg hdvd]
      have h1 : np < np / ws * ws + ws := Nat.lt_div_mul_add hws
      calc np ≤ np / ws * ws + ws := le_of_lt h1
        _ = (np / ws + 1) * ws := by ring
  have hE3 : NW * ws < np + ws := by
    rw [hNWdef]
    by_cases hdvd : ws ∣ np
    · rw [if_pos hdvd]
      have := Nat.div_mul_cancel hdvd
      omega
    · rw [if_neg hdvd]
      have hle := Nat.div_mul_le_self np ws
      have hne : np / ws * ws ≠ np := by
        intro he
        exact hdvd (he ▸ dvd_mul_left ws (np / ws))
      have hlt : np / ws * ws < np := lt_of_le_of_ne hle hne
      calc (np / ws + 1) * ws = np / ws * ws + ws := by ring
        _ < np + ws := by omega
  have hD2 : 2 ≤ NW - 1 := by omega
  refine ⟨(NW * ws - np) / (NW - 1), (NW * ws - np) % (NW - 1), hNW3, ?_, hE4, hE3, ?_, ?_⟩
  · have := Nat.mod_lt (NW * ws - np) (show 0 < NW - 1 by omega)
    omega
  · have h := Nat.div_add_mod (NW * ws - np) (NW - 1)
    calc (NW * ws - np) / (NW - 1) * (NW - 1) + (NW * ws - np) % (NW - 1)
        = (NW - 1) * ((NW * ws - np) / (NW - 1)) + (NW * ws - np) % (NW - 1) := by
          ring
      _ = NW * ws - np := h
  · -- the list equality
    have hcond : ((np : ℚ) / (ws : ℚ) = ((pyint ((np : ℚ) / (ws : ℚ)) : ℤ) : ℚ)) ↔
        ws ∣ np := by
      rw [hn]
      push_cast
      exact natCast_div_eq_iff_dvd np ws hws
    have hNWe : (if (np : ℚ) / (ws : ℚ) = ((pyint ((np : ℚ) / (ws : ℚ)) : ℤ) : ℚ)
        then pyint ((np : ℚ) / (ws : ℚ))
        else pyint ((np : ℚ) / (ws : ℚ)) + 1) = (NW : ℤ) := by
      rw [hNWdef]
      by_cases hdvd : ws ∣ np
      · rw [if_pos (hcond.2 hdvd), if_pos hdvd, hn]
      · rw [if_neg (fun hc => hdvd (hcond.1 hc)), if_neg hdvd, hn]
        push_cast
        ring
    have hRcast : ((NW : ℚ)) * (ws : ℚ) - (np : ℚ) = ((NW * ws - np : ℕ) : ℚ) := by
      rw [Nat.cast_sub hE4]
      push_cast
      ring
    have hDcast : ((NW : ℚ)) - 1 = ((NW - 1 : ℕ) : ℚ) := by
      rw [Nat.cast_sub (by omega : 1 ≤ NW)]
      push_cast
      ring
    have hoffnn : (0 : ℚ) ≤ ((NW * ws - np : ℕ) : ℚ) / ((NW - 1 : ℕ) : ℚ) := by
      positivity
    have hove : pyint (((NW * ws - np : ℕ) : ℚ) / ((NW - 1 : ℕ) : ℚ)) =
        (((NW * ws - np) / (NW - 1) : ℕ) : ℤ) := by
      rw [pyint_nonneg _ hoffnn, floor_natCast_div _ _ (by omega)]
    have hDne : ((NW - 1 : ℕ) : ℚ) ≠ 0 := by
      have h0 : 0 < NW - 1 := by omega
      exact_mod_cast h0.ne'
    have hmsgq : (((NW * ws - np : ℕ) : ℚ) / ((NW - 1 : ℕ) : ℚ) -
          (((NW * ws - np) / (NW - 1) : ℕ) : ℚ)) * ((NW - 1 : ℕ) : ℚ) =
        (((NW * ws - np) % (NW - 1) : ℕ) : ℚ) := by
      rw [sub_mul, div_mul_cancel₀ _ hDne]
      have hdm := Nat.div_add_mod (NW * ws - np) (NW - 1)
      have hcast : ((NW - 1 : ℕ) : ℚ) * (((NW * ws - np) / (NW - 1) : ℕ) : ℚ) +
          (((NW * ws - np) % (NW - 1) : ℕ) : ℚ) = ((NW * ws - np : ℕ) : ℚ) := by
        exact_mod_cast hdm
      linarith
    unfold get_windows
    rw [if_neg (by omega), if_neg (by omega)]
    simp only [hNWe]
    push_cast
    simp only [hRcast, hDcast]
    rw [hove]
    simp only [Int.cast_natCast]
    rw [hmsgq, pyround_natCast ((NW * ws - np) % (NW - 1))]
    simp only [Int.toNat_natCast, Int.natCast_div, Int.natCast_mod]

/-- Chained half-open intervals of width `w` whose starts advance by at most
`w` per step cover `[0, np)` when the first starts at 0 and the last reaches
`np`. -/
theorem windows_cover (NW : ℕ) (s : ℕ → ℤ) (w np x : ℤ)
    (hNW : 0 < NW) (h0 : s 0 = 0)
    (hstep : ∀ i, i + 1 < NW → s (i + 1) ≤ s i + w)
    (hlast : np ≤ s (NW - 1) + w)
    (hx0 : 0 ≤ x) (hxnp : x < np) :
    ∃ i, i < NW ∧ s i ≤ x ∧ x < s i + w := by
  have hP0 : s 0 ≤ x := by rw [h0]; exact hx0
  have main : ∀ m j, j < NW → NW - 1 - j ≤ m → s j ≤ x →
      ∃ i, i < NW ∧ s i ≤ x ∧ x < s i + w := by
    intro m
    induction m with
    | zero =>
        intro j hj hm hsj
        have hj2 : j = NW - 1 := by omega
        subst hj2
        exact ⟨NW - 1, by omega, hsj, by omega⟩
    | succ m ih =>
        intro j hj hm hsj
        by_cases hx : x < s j + w
        · exact ⟨j, hj, hsj, hx⟩
        · push_neg at hx
          have hj2 : j + 1 < NW := by
            by_contra hge
            have hj3 : j = NW - 1 := by omega
            subst hj3
            omega
          exact ih (j + 1) hj2 (by omega) (le_trans (hstep j hj2) hx)
  exact main (NW - 1) 0 hNW (by omega) hP0

set_option maxHeartbeats 1600000 in
/-- Soundness of the third branch of `get_windows`: with
`overlap = ov = R / (NW - 1)` and `missing = msg = R % (NW - 1)` for
`R = NW * ws - np`, the `NW` produced windows have width `ws`, stay inside
`[0, np]`, and union to exactly `[0, np)`. -/
theorem third_branch_sound (np ws NW ov msg : ℕ) (hws : 1 ≤ ws)
    (hNW3 : 3 ≤ NW) (hmsg2 : msg + 2 ≤ NW) (hE4 : np ≤ NW * ws)
    (hE3 : NW * ws < np + ws) (hE1 : ov * (NW - 1) + msg = NW * ws - np) :
    (∀ w ∈ (List.range NW).map (fun (i : ℕ) =>
        if (NW : ℤ) - (i : ℤ) ≤ (msg : ℤ) then
          ((i : ℤ) * ((ws : ℤ) - (ov : ℤ)) - (msg : ℤ),
            ((i : ℤ) + 1) * (ws : ℤ) - (i : ℤ) * (ov : ℤ) - (msg : ℤ))
        else ((i : ℤ) * ((ws : ℤ) - (ov : ℤ)),
          ((i : ℤ) + 1) * (ws : ℤ) - (i : ℤ) * (ov : ℤ))),
        w.2 - w.1 = (ws : ℤ) ∧ 0 ≤ w.1 ∧ w.2 ≤ (np : ℤ)) ∧
      ∀ x : ℤ, (∃ w ∈ (List.range NW).map (fun (i : ℕ) =>
        if (NW : ℤ) - (i : ℤ) ≤ (msg : ℤ) then
          ((i : ℤ) * ((ws : ℤ) - (ov : ℤ)) - (msg : ℤ),
            ((i : ℤ) + 1) * (ws : ℤ) - (i : ℤ) * (ov : ℤ) - (msg : ℤ))
        else ((i : ℤ) * ((ws : ℤ) - (ov : ℤ)),
          ((i : ℤ) + 1) * (ws : ℤ) - (i : ℤ) * (ov : ℤ))),
        w.1 ≤ x ∧ x < w.2) ↔ 0 ≤ x ∧ x < (np : ℤ) := by
  have hE1z : (ov : ℤ) * ((NW : ℤ) - 1) + (msg : ℤ) =
      (NW : ℤ) * (ws : ℤ) - (np : ℤ) := by
    have h1 : ((ov * (NW - 1) + msg : ℕ) : ℤ) = ((NW * ws - np : ℕ) : ℤ) := by
      exact_mod_cast hE1
    push_cast [Nat.cast_sub hE4, Nat.cast_sub (show 1 ≤ NW by omega)] at h1
    linarith [h1]
  have hR1 : (np : ℤ) ≤ (NW : ℤ) * (ws : ℤ) := by exact_mod_cast hE4
  have hR2 : (NW : ℤ) * (ws : ℤ) < (np : ℤ) + (ws : ℤ) := by exact_mod_cast hE3
  have hNz : (3 : ℤ) ≤ (NW : ℤ) := by exact_mod_cast hNW3
  have hmz : (msg : ℤ) + 2 ≤ (NW : ℤ) := by exact_mod_cast hmsg2
  have hwz : (1 : ℤ) ≤ (ws : ℤ) := by exact_mod_cast hws
  have hov0 : (0 : ℤ) ≤ (ov : ℤ) := Int.natCast_nonneg ov
  have hmsg0 : (0 : ℤ) ≤ (msg : ℤ) := Int.natCast_nonneg msg
  have hovD : (ov : ℤ) * ((NW : ℤ) - 1) ≤ (NW : ℤ) * (ws : ℤ) - (np : ℤ) := by
    linarith
  have h2ov : 2 * (ov : ℤ) ≤ (NW : ℤ) * (ws : ℤ) - (np : ℤ) := by
    have h := mul_le_mul_of_nonneg_left
      (show (2 : ℤ) ≤ (NW : ℤ) - 1 by linarith) hov0
    linarith
  have hwsov : (1 : ℤ) ≤ (ws : ℤ) - (ov : ℤ) := by linarith
  have hmsgle : (msg : ℤ) ≤ 2 * ((ws : ℤ) - (ov : ℤ)) := by
    have hprod : (0 : ℤ) ≤ (ov : ℤ) * ((NW : ℤ) - 3) :=
      mul_nonneg hov0 (by linarith)
    nlinarith [hE1z, hR2, hprod]
  have hid : ((NW : ℤ) - 1) * ((ws : ℤ) - (ov : ℤ)) + (ws : ℤ) - (msg : ℤ) =
      (np : ℤ) := by linear_combination (-1 : ℤ) * hE1z
  have hbounds : ∀ w ∈ (List.range NW).map (fun (i : ℕ) =>
      if (NW : ℤ) - (i : ℤ) ≤ (msg : ℤ) then
        ((i : ℤ) * ((ws : ℤ) - (ov : ℤ)) - (msg : ℤ),
          ((i : ℤ) + 1) * (ws : ℤ) - (i : ℤ) * (ov : ℤ) - (msg : ℤ))
      else ((i : ℤ) * ((ws : ℤ) - (ov : ℤ)),
        ((i : ℤ) + 1) * (ws : ℤ) - (i : ℤ) * (ov : ℤ))),
      w.2 - w.1 = (ws : ℤ) ∧ 0 ≤ w.1 ∧ w.2 ≤ (np : ℤ) := by
    intro w hw
    simp only [List.mem_map, List.mem_range] at hw
    obtain ⟨i, hi, hfi⟩ := hw
    have hi0 : (0 : ℤ) ≤ (i : ℤ) := Int.natCast_nonneg i
    have hiz : (i : ℤ) ≤ (NW : ℤ) - 1 := by
      have : (i : ℤ) < (NW : ℤ) := by exact_mod_cast hi
      linarith
    by_cases hcond : (NW : ℤ) - (i : ℤ) ≤ (msg : ℤ)
    · rw [if_pos hcond] at hfi
      subst hfi
      refine ⟨by ring, ?_, ?_⟩
      · have t1 : ((NW : ℤ) - (msg : ℤ)) * ((ws : ℤ) - (ov : ℤ)) ≤
            (i : ℤ) * ((ws : ℤ) - (ov : ℤ)) :=
          mul_le_mul_of_nonneg_right (by linarith) (by linarith)
        have t2 : 2 * ((ws : ℤ) - (ov : ℤ)) ≤
            ((NW : ℤ) - (msg : ℤ)) * ((ws : ℤ) - (ov : ℤ)) :=
          mul_le_mul_of_nonneg_right (by linarith) (by linarith)
        simp only []
        linarith
      · have t3 : (i : ℤ) * ((ws : ℤ) - (ov : ℤ)) ≤
            ((NW : ℤ) - 1) * ((ws : ℤ) - (ov : ℤ)) :=
          mul_le_mul_of_nonneg_right hiz (by linarith)
        simp only []
        linarith
    · rw [if_neg hcond] at hfi
      subst hfi
      push_neg at hcond
      refine ⟨by ring, ?_, ?_⟩
      · exact mul_nonneg hi0 (by linarith)
      · have t4 : (i : ℤ) * ((ws : ℤ) - (ov : ℤ)) ≤
            ((NW : ℤ) - 1 - (msg : ℤ)) * ((ws : ℤ) - (ov : ℤ)) :=
          mul_le_mul_of_nonneg_right (by linarith) (by linarith)
        have hprod : (0 : ℤ) ≤ (msg : ℤ) * ((ws : ℤ) - (ov : ℤ) - 1) :=
          mul_nonneg hmsg0 (by linarith)
        simp only []
        nlinarith [t4, hid, hprod]
  refine ⟨hbounds, fun x => ⟨?_, ?_⟩⟩
  · rintro ⟨w, hw, hx1, hx2⟩
    obtain ⟨_, hw1, hw2⟩ := hbounds w hw
    exact ⟨le_trans hw1 hx1, lt_of_lt_of_le hx2 hw2⟩
  · rintro ⟨hx0, hxnp⟩
    have hcov0 : (if (NW : ℤ) - ((0 : ℕ) : ℤ) ≤ (msg : ℤ) then
        ((0 : ℕ) : ℤ) * ((ws : ℤ) - (ov : ℤ)) - (msg : ℤ)
        else ((0 : ℕ) : ℤ) * ((ws : ℤ) - (ov : ℤ))) = 0 := by
      rw [if_neg (by push_cast; linarith)]
      push_cast
      ring
    have hcovstep : ∀ j : ℕ, j + 1 < NW →
        (if (NW : ℤ) - ((j + 1 : ℕ) : ℤ) ≤ (msg : ℤ) then
          ((j + 1 : ℕ) : ℤ) * ((ws : ℤ) - (ov : ℤ)) - (msg : ℤ)
          else ((j + 1 : ℕ) : ℤ) * ((ws : ℤ) - (ov : ℤ))) ≤
        (if (NW : ℤ) - (j : ℤ) ≤ (msg : ℤ) then
          (j : ℤ) * ((ws : ℤ) - (ov : ℤ)) - (msg : ℤ)
          else (j : ℤ) * ((ws : ℤ) - (ov : ℤ))) + (ws : ℤ) := by
      intro j hj
      by_cases hcj : (NW : ℤ) - (j : ℤ) ≤ (msg : ℤ)
      · have hcj1 : (NW : ℤ) - ((j + 1 : ℕ) : ℤ) ≤ (msg : ℤ) := by
          push_cast
          linarith
        rw [if_pos hcj1, if_pos hcj]
        push_cast
        linarith
      · by_cases hcj1 : (NW : ℤ) - ((j + 1 : ℕ) : ℤ) ≤ (msg : ℤ)
        · rw [if_pos hcj1, if_neg hcj]
          push_cast
          linarith
        · rw [if_neg hcj1, if_neg hcj]
          push_cast
          linarith
    have hcovlast : (np : ℤ) ≤
        (if (NW : ℤ) - ((NW - 1 : ℕ) : ℤ) ≤ (msg : ℤ) then
          ((NW - 1 : ℕ) : ℤ) * ((ws : ℤ) - (ov : ℤ)) - (msg : ℤ)
          else ((NW - 1 : ℕ) : ℤ) * ((ws : ℤ) - (ov : ℤ))) + (ws : ℤ) := by
      have hcast : ((NW - 1 : ℕ) : ℤ) = (NW : ℤ) - 1 := by
        push_cast [Nat.cast_sub (show 1 ≤ NW by omega)]
        ring
      by_cases hm1 : (1 : ℤ) ≤ (msg : ℤ)
      · rw [if_pos (by rw [hcast]; linarith)]
        rw [hcast]
        linarith
      · rw [if_neg (by rw [hcast]; linarith)]
        rw [hcast]
        have hm0 : (msg : ℤ) = 0 := by linarith
        linarith
    obtain ⟨i, hi, hs1, hs2⟩ := windows_cover NW
      (fun (i : ℕ) => if (NW : ℤ) - (i : ℤ) ≤ (msg : ℤ) then
        (i : ℤ) * ((ws : ℤ) - (ov : ℤ)) - (msg : ℤ)
        else (i : ℤ) * ((ws : ℤ) - (ov : ℤ)))
      (ws : ℤ) (np : ℤ) x (by omega) hcov0 hcovstep hcovlast hx0 hxnp
    by_cases hcond : (NW : ℤ) - (i : ℤ) ≤ (msg : ℤ)
    · refine ⟨((i : ℤ) * ((ws : ℤ) - (ov : ℤ)) - (msg : ℤ),
          ((i : ℤ) + 1) * (ws : ℤ) - (i : ℤ) * (ov : ℤ) - (msg : ℤ)),
        List.mem_map.2 ⟨i, List.mem_range.2 hi, by rw [if_pos hcond]⟩, ?_, ?_⟩
      · rw [if_pos hcond] at hs1
        exact hs1
      · rw [if_pos hcond] at hs2
        show x < ((i : ℤ) + 1) * (ws : ℤ) - (i : ℤ) * (ov : ℤ) - (msg : ℤ)
        linarith
    · refine ⟨((i : ℤ) * ((ws : ℤ) - (ov : ℤ)),
          ((i : ℤ) + 1) * (ws : ℤ) - (i : ℤ) * (ov : ℤ)),
        List.mem_map.2 ⟨i, List.mem_range.2 hi, by rw [if_neg hcond]⟩, ?_, ?_⟩
      · rw [if_neg hcond] at hs1
        exact hs1
      · rw [if_neg hcond] at hs2
        show x < ((i : ℤ) + 1) * (ws : ℤ) - (i : ℤ) * (ov : ℤ)
        linarith

/-- C4: for every `num_pages` and `window_size` with
`1 ≤ window_size ≤ num_pages`, every window returned by `get_windows` has
width exactly `window_size` and lies inside `[0, num_pages]`, and the
half-open windows union to exactly `[0, num_pages)`. -/
theorem C4_windows (np ws : ℕ) (hws : 1 ≤ ws) (hbound : ws ≤ np) :
    (∀ w ∈ get_windows np ws,
        w.2 - w.1 = (ws : ℤ) ∧ 0 ≤ w.1 ∧ w.2 ≤ (np : ℤ)) ∧
      ∀ x : ℤ, (∃ w ∈ get_windows np ws, w.1 ≤ x ∧ x < w.2) ↔
        0 ≤ x ∧ x < (np : ℤ) := by
  by_cases h1 : np ≤ ws
  · have hnw : np = ws := le_antisymm h1 hbound
    rw [get_windows, if_pos h1]
    constructor
    · intro w hw
      simp only [List.mem_singleton] at hw
      subst hw
      refine ⟨by rw [hnw]; simp, by simp, by simp⟩
    · intro x
      constructor
      · rintro ⟨w, hw, hx1, hx2⟩
        simp only [List.mem_singleton] at hw
        subst hw
        exact ⟨hx1, hx2⟩
      · rintro ⟨hx0, hxnp⟩
        exact ⟨((0 : ℤ), (np : ℤ)), by simp, hx0, hxnp⟩
  · push_neg at h1
    by_cases h2 : np ≤ 2 * ws
    · rw [get_windows, if_neg (by omega), if_pos h2]
      have hcast1 : (ws : ℤ) ≤ (np : ℤ) := by exact_mod_cast hbound
      have hcast2 : (np : ℤ) ≤ 2 * (ws : ℤ) := by exact_mod_cast h2
      have hcast3 : (ws : ℤ) < (np : ℤ) := by exact_mod_cast h1
      constructor
      · intro w hw
        simp only [List.mem_cons, List.mem_singleton, List.not_mem_nil,
          or_false] at hw
        rcases hw with hw | hw <;> subst hw
        · exact ⟨by ring, le_refl 0, hcast1⟩
        · exact ⟨by ring, by omega, le_refl _⟩
      · intro x
        constructor
        · rintro ⟨w, hw, hx1, hx2⟩
          simp only [List.mem_cons, List.mem_singleton, List.not_mem_nil,
            or_false] at hw
          rcases hw with hw | hw <;> subst hw
          · exact ⟨hx1, by omega⟩
          · exact ⟨by omega, hx2⟩
        · rintro ⟨hx0, hxnp⟩
          by_cases hx : x < (ws : ℤ)
          · exact ⟨((0 : ℤ), (ws : ℤ)), by simp, hx0, hx⟩
          · exact ⟨((np : ℤ) - (ws : ℤ), (np : ℤ)), by simp, by omega, hxnp⟩
    · push_neg at h2
      obtain ⟨NW, ov, msg, hNW3, hmsg2, hE4, hE3, hE1, hmap⟩ :=
        get_windows_third_eq np ws (by omega) h2
      rw [hmap]
      exact third_branch_sound np ws NW ov msg hws hNW3 hmsg2 hE4 hE3 hE1

/-- Witness for C4 at num_pages 7, window_size 3. -/
theorem C4_windows_witness :
    ((1 ≤ 3 ∧ 3 ≤ 7) ∧
      (∀ w ∈ get_windows 7 3,
          w.2 - w.1 = ((3 : ℕ) : ℤ) ∧ 0 ≤ w.1 ∧ w.2 ≤ ((7 : ℕ) : ℤ)) ∧
        ∀ x : ℤ, (∃ w ∈ get_windows 7 3, w.1 ≤ x ∧ x < w.2) ↔
          0 ≤ x ∧ x < ((7 : ℕ) : ℤ)) :=
  ⟨⟨by decide, by decide⟩, C4_windows 7 3 (by decide) (by decide)⟩

/-! The graph part: `generate_graph`, `permute_graph`, `sparsify_graph`.
A networkx `Graph` is modelled first-order: the node list with each node's
ATTR value (a Python float or tuple, `PyVal`), and the adjacency list with
the edge ATTR (the similarity weight), storing both directions of every
undirected edge as networkx's dict-of-dicts does, in insertion order. -/

/-- A Python value stored under the ATTR key: a float or a tuple. -/
inductive PyVal where
  | num : ℚ → PyVal
  | tup : List PyVal → PyVal
deriving Repr

/-- A networkx undirected graph. -/
structure Graph where
  nodes : List (ℕ × PyVal)
  edges : List (ℕ × ℕ × ℚ)
deriving Repr

/-- Node iteration order `graph.nodes`. -/
def nodeIds (g : Graph) : List ℕ := g.nodes.map Prod.fst

/-- Node attribute lookup `graph.nodes[u][ATTR]` (all uses in the source hit
existing nodes, so the default is never observable). -/
def getNodeAttr (g : Graph) (u : ℕ) : PyVal :=
  ((g.nodes.find? (fun p => p.1 == u)).map Prod.snd).getD (PyVal.tup [])

/-- Node attribute assignment `graph.nodes[u][ATTR] = v`. -/
def setNodeAttr (g : Graph) (u : ℕ) (v : PyVal) : Graph :=
  { g with nodes := g.nodes.map (fun p => if p.1 == u then (p.1, v) else p) }

/-- Edge membership `graph.has_edge(u, v)`. -/
def hasEdge (g : Graph) (u v : ℕ) : Bool :=
  g.edges.any (fun e => e.1 == u && e.2.1 == v)

/-- Edge weight lookup `graph.edges[(u, v)][ATTR]` (all uses in the source
hit existing edges, so the default is never observable). -/
def getW (g : Graph) (u v : ℕ) : ℚ :=
  ((g.edges.find? (fun e => e.1 == u && e.2.1 == v)).map
    (fun e => e.2.2)).getD 0

/-- The edge weight as an observation: `none` when the edge is absent. -/
def edgeW (g : Graph) (u v : ℕ) : Option ℚ :=
  (g.edges.find? (fun e => e.1 == u && e.2.1 == v)).map (fun e => e.2.2)

/-- Neighbor iteration order `graph.neighbors(u)`: the adjacency entries of
`u` in insertion order. -/
def neighbors (g : Graph) (u : ℕ) : List ℕ :=
  (g.edges.filter (fun e => e.1 == u)).map (fun e => e.2.1)

/-- `graph.add_edge(u, v)` immediately followed by
`graph.edges[(u, v)][ATTR] = q`: inserts both directions when the edge is
new, otherwise overwrites the stored weight. -/
def addEdgeW (g : Graph) (u v : ℕ) (q : ℚ) : Graph :=
  if hasEdge g u v then
    { g with edges := g.edges.map (fun e =>
        if (e.1 == u && e.2.1 == v) || (e.1 == v && e.2.1 == u) then
          (e.1, e.2.1, q) else e) }
  else { g with edges := g.edges ++ [(u, v, q), (v, u, q)] }

/-- Edge iteration order of `nx.complete_graph(n)` (and of `graph.edges` on
it): the pairs `(i, j)` with `i < j` in lexicographic order, as produced by
`itertools.combinations(range(n), 2)`. -/
def completePairs (n : ℕ) : List (ℕ × ℕ) :=
  (List.range n).flatMap (fun i =>
    ((List.range n).filter (fun j => decide (i < j))).map (fun j => (i, j)))

/-- A complete weighted graph as `generate_graph` builds it:
`nx.complete_graph(n)` followed by `graph.edges[i, j][ATTR] = weights[i, j]`
over the edge iteration (pairs `i < j`), with per-node ATTR values given by
`attr`.  Both directions of each edge carry the upper-triangle matrix
entry. -/
def completeW (n : ℕ) (weights : ℕ → ℕ → ℚ) (attr : ℕ → PyVal) : Graph :=
  { nodes := (List.range n).map (fun i => (i, attr i)),
    edges := (completePairs n).flatMap (fun p =>
      [(p.1, p.2, weights p.1 p.2), (p.2, p.1, weights p.1 p.2)]) }

/-- The node ATTR tuple `generate_graph` stores: `(float(node),
len(pages[node]), len(pages[node].split()), sum of incident weights)`.  The
incident sum reads the stored edge attributes, i.e. the upper-triangle
entries `weights[min, max]`, over `other in graph.nodes, other != node`. -/
def pageAttr (pages : List (List Char)) (weights : ℕ → ℕ → ℚ) (i : ℕ) : PyVal :=
  PyVal.tup [PyVal.num i, PyVal.num (pages.getD i []).length,
    PyVal.num (pywords (pages.getD i [])).length,
    PyVal.num ((((List.range pages.length).filter (fun o => !(o == i))).map
      (fun o => weights (min i o) (max i o))).sum)]

/-- `generate_graph(pages)` from utils.py.  The similarity oracle
`get_weights` (TF-IDF + cosine over nltk/sklearn, an external collaborator
per the design document) is the parameter `weights`. -/
def generate_graph (pages : List (List Char)) (weights : ℕ → ℕ → ℚ) : Graph :=
  completeW pages.length weights (pageAttr pages weights)

/-- Python slice `l[:k]` for an arbitrary integer `k` (a negative `k`
counts from the end). -/
def pySliceTo (k : ℤ) (l : List α) : List α :=
  if 0 ≤ k then l.take k.toNat else l.take ((l.length : ℤ) + k).toNat

/-- State-passing `sparsify_graph(graph, k)` from utils.py: the state pair
is `(new_graph, graph)`.  `graph.copy()` duplicates the attribute dicts
(networkx copies each node/edge data dict), `clear_edges` and every
`add_edge`/weight write target `new_graph`, and every read
(`graph.nodes`, `graph.neighbors`, `get_weight`) targets `graph`.
`sorted(..., key=..., reverse=True)` is a stable descending sort, modelled
by a stable merge sort with `le a b := key b ≤ key a`.  Returns the result
and the final state of the input graph object. -/
def sparsifyS (g : Graph) (k : ℤ) : Graph × Graph :=
  (nodeIds g).foldl (fun st node =>
    (pySliceTo k ((neighbors st.2 node).mergeSort
        (fun a b => decide (getW st.2 node b ≤ getW st.2 node a)))).foldl
      (fun st2 other =>
        (addEdgeW st2.1 node other (getW st2.2 node other), st2.2)) st)
    ({ g with edges := [] }, g)

/-- `sparsify_graph(graph, k)` from utils.py. -/
def sparsify_graph (g : Graph) (k : ℤ) : Graph := (sparsifyS g k).1

/-- `nx.relabel_nodes(graph, mapping)` with `copy=True`: a fresh graph with
every node label pushed through `mapping.get(n, n)` and the attribute data
dicts copied. -/
def relabel (g : Graph) (mapping : List (ℕ × ℕ)) : Graph :=
  { nodes := g.nodes.map (fun p => ((mapping.lookup p.1).getD p.1, p.2)),
    edges := g.edges.map (fun e =>
      ((mapping.lookup e.1).getD e.1, (mapping.lookup e.2.1).getD e.2.1,
        e.2.2)) }

/-- The attribute-rewriting loop of `permute_graph`, state-passing: the
first graph is `new_graph` (mutated), the second is `graph` (never the
receiver of a mutating call).  `_, attrs = new_graph.nodes[node][ATTR]`
requires the stored value to be a 2-element tuple, and `(float(node),
*attrs)` requires its second component to be a tuple; any other shape
raises, modelled by `none`. -/
def relabelLoopS : List ℕ → Graph → Graph → (Option Graph) × Graph
  | [], ng, g => (some ng, g)
  | u :: us, ng, g =>
      match getNodeAttr ng u with
      | PyVal.tup [_, PyVal.tup l] =>
          relabelLoopS us (setNodeAttr ng u (PyVal.tup (PyVal.num u :: l))) g
      | _ => (none, g)

/-- State-passing `permute_graph(graph)` from utils.py: the random draw
`new_order = sample(range(num_nodes), num_nodes)` is a parameter;
`mapping = dict(zip(graph.nodes, new_order))`.  Returns the
`(new_graph, new_order)` result (`none` when the loop raises) and the final
state of the input graph object. -/
def permuteS (new_order : List ℕ) (g : Graph) :
    Option (Graph × List ℕ) × Graph :=
  let mapping := (nodeIds g).zip new_order
  let ng := relabel g mapping
  let res := relabelLoopS (nodeIds ng) ng g
  (res.1.map (fun ng2 => (ng2, new_order)), res.2)

/-- `permute_graph(graph)` from utils.py (result component). -/
def permute_graph (new_order : List ℕ) (g : Graph) :
    Option (Graph × List ℕ) :=
  (permuteS new_order g).1

/-! Frame properties: the state-passing versions never change the input
graph component. -/

theorem foldl_preserves_snd {α β γ : Type} (step : β × γ → α → β × γ)
    (h : ∀ st a, (step st a).2 = st.2) :
    ∀ (l : List α) (st : β × γ), (l.foldl step st).2 = st.2 := by
  intro l
  induction l with
  | nil => intro st; rfl
  | cons a l ih => intro st; rw [List.foldl_cons, ih, h]

theorem sparsifyS_snd (g : Graph) (k : ℤ) : (sparsifyS g k).2 = g := by
  unfold sparsifyS
  apply foldl_preserves_snd
  intro st node
  apply foldl_preserves_snd
  intro st2 other
  rfl

theorem relabelLoopS_snd :
    ∀ (us : List ℕ) (ng g : Graph), (relabelLoopS us ng g).2 = g := by
  intro us
  induction us with
  | nil => intro ng g; rfl
  | cons u us ih =>
      intro ng g
      rw [relabelLoopS]
      split
      · exact ih _ _
      · rfl

theorem permuteS_snd (new_order : List ℕ) (g : Graph) :
    (permuteS new_order g).2 = g := by
  unfold permuteS
  exact relabelLoopS_snd _ _ _

/-- C8: `sparsify_graph` and `permute_graph` leave the input graph
unchanged: in the state-passing embeddings, in which every mutating call of
the source (`clear_edges`, `add_edge`, attribute writes) is applied to the
copy / relabelled graph component and never to the input component, the
input graph's final state equals its initial state.  (That the copies are
independent rests on networkx `copy`/`relabel_nodes` duplicating the
attribute dicts, which the embedding models by value semantics.) -/
theorem C8_no_mutation (g : Graph) (k : ℤ) (new_order : List ℕ) :
    (sparsifyS g k).2 = g ∧ (permuteS new_order g).2 = g ∧
      sparsify_graph g k = (sparsifyS g k).1 ∧
      permute_graph new_order g = (permuteS new_order g).1 :=
  ⟨sparsifyS_snd g k, permuteS_snd new_order g, rfl, rfl⟩

/-! The permute bug: node attributes are 4-tuples, the loop unpacks 2. -/

theorem relabelLoopS_head_four (us : List ℕ) (ng g : Graph) (u : ℕ)
    (a b c d : PyVal) (h : getNodeAttr ng u = PyVal.tup [a, b, c, d]) :
    relabelLoopS (u :: us) ng g = (none, g) := by
  rw [relabelLoopS, h]
  split <;> simp_all

/-- C1 (code bug, evaluated at the failing input): on the graph
`generate_graph` builds from the two pages "a" and "b" (node attributes are
4-tuples of floats), `permute_graph` raises — the two-variable unpacking
`_, attrs = new_graph.nodes[node][ATTR]` fails — instead of returning a
`(new_graph, label)` pair. -/
theorem C1_permute_raises_on_generated_graph :
    permute_graph [1, 0] (generate_graph [['a'], ['b']] (fun _ _ => 0)) =
      none := by
  rfl

/-- C2 (counterexample): for the empty page list (the oracle contract gives
a 0-by-0 matrix) `generate_graph` yields the empty graph and `permute_graph`
returns a value — the attribute loop has no node to fail on — contradicting
the claim for every page list. -/
theorem C2_counterexample :
    (permute_graph [] (generate_graph [] (fun _ _ => 0))).isSome = true := by
  rfl

theorem permuteS_first_node_four (g : Graph) (new_order : List ℕ) (u : ℕ)
    (a b c d : PyVal) (tl : List (ℕ × PyVal))
    (h : g.nodes = (u, PyVal.tup [a, b, c, d]) :: tl) :
    (permuteS new_order g).1 = none := by
  unfold permuteS
  have hids : nodeIds g = u :: tl.map Prod.fst := by
    rw [nodeIds, h, List.map_cons]
  set mapping := (nodeIds g).zip new_order with hmap
  set m0 := ((mapping.lookup u).getD u) with hm0
  have hng : (relabel g mapping).nodes =
      (m0, PyVal.tup [a, b, c, d]) ::
        tl.map (fun p => ((mapping.lookup p.1).getD p.1, p.2)) := by
    rw [relabel, h, List.map_cons]
  have hids2 : nodeIds (relabel g mapping) =
      m0 :: (tl.map (fun p => ((mapping.lookup p.1).getD p.1, p.2))).map
        Prod.fst := by
    rw [nodeIds, hng, List.map_cons]
  have hattr : getNodeAttr (relabel g mapping) m0 = PyVal.tup [a, b, c, d] := by
    rw [getNodeAttr, hng, List.find?_cons_of_pos _ (by simp)]
    rfl
  show Option.map (fun ng2 => (ng2, new_order))
      ((relabelLoopS (nodeIds (relabel g mapping)) (relabel g mapping) g).1) =
    none
  rw [hids2, relabelLoopS_head_four _ _ _ _ _ _ _ _ hattr]
  rfl

/-- C2 (amended): for every non-empty page list and every weight matrix,
`permute_graph` applied to the graph returned by `generate_graph` raises
(the stored node attribute is a 4-tuple, so the two-variable unpacking
fails) and never returns a value; every graph the `BookDataset` pipeline
builds comes from a non-empty page list. -/
theorem C2_permute_never_returns (pages : List (List Char))
    (weights : ℕ → ℕ → ℚ) (new_order : List ℕ) (hne : pages ≠ []) :
    permute_graph new_order (generate_graph pages weights) = none := by
  cases pages with
  | nil => exact absurd rfl hne
  | cons p rest =>
      have hnodes : (generate_graph (p :: rest) weights).nodes =
          (0, pageAttr (p :: rest) weights 0) ::
            ((List.range rest.length).map Nat.succ).map
              (fun i => (i, pageAttr (p :: rest) weights i)) := by
        show ((List.range (p :: rest).length).map
            (fun i => (i, pageAttr (p :: rest) weights i))) = _
        rw [List.length_cons, List.range_succ_eq_map, List.map_cons]
      unfold permute_graph
      rw [permuteS_first_node_four (generate_graph (p :: rest) weights)
        new_order 0 _ _ _ _ _ hnodes]

/-- Witness for C2 amended at the two pages "a", "b" with weights 0 and the
identity draw. -/
theorem C2_permute_never_returns_witness :
    ([['a'], ['b']] : List (List Char)) ≠ [] ∧
      permute_graph [0, 1] (generate_graph [['a'], ['b']] (fun _ _ => 0)) =
        none :=
  ⟨by decide, C2_permute_never_returns [['a'], ['b']] (fun _ _ => 0) [0, 1]
    (by decide)⟩

/-! Sparsifier correctness on complete weighted graphs. -/

/-- The weight both stored directions of an edge carry: the upper-triangle
matrix entry. -/
def wm (w : ℕ → ℕ → ℚ) (a b : ℕ) : ℚ := w (min a b) (max a b)

theorem wm_comm (w : ℕ → ℕ → ℚ) (a b : ℕ) : wm w a b = wm w b a := by
  rw [wm, wm, min_comm, max_comm]

theorem mem_completePairs (n : ℕ) (p : ℕ × ℕ) :
    p ∈ completePairs n ↔ p.1 < p.2 ∧ p.2 < n := by
  cases p with
  | mk x y =>
      simp only [completePairs, List.mem_flatMap, List.mem_map,
        List.mem_filter, List.mem_range]
      constructor
      · rintro ⟨i, hi, j, ⟨hj, hij⟩, hpair⟩
        obtain ⟨h1, h2⟩ := Prod.mk.injEq .. ▸ hpair
        simp only [Prod.mk.injEq] at hpair
        obtain ⟨rfl, rfl⟩ := hpair
        exact ⟨by simpa using hij, hj⟩
      · rintro ⟨hxy, hyn⟩
        exact ⟨x, lt_trans hxy hyn, y, ⟨hyn, by simpa using hxy⟩, rfl⟩

theorem completeW_edges_val (n : ℕ) (w : ℕ → ℕ → ℚ) (attr : ℕ → PyVal) :
    ∀ e ∈ (completeW n w attr).edges, e.2.2 = wm w e.1 e.2.1 ∧
      e.1 ≠ e.2.1 ∧ e.1 < n ∧ e.2.1 < n := by
  intro e he
  simp only [completeW, List.mem_flatMap] at he
  obtain ⟨p, hp, he2⟩ := he
  obtain ⟨hlt, hn⟩ := (mem_completePairs n p).1 hp
  simp only [List.mem_cons, List.mem_singleton, List.not_mem_nil,
    or_false] at he2
  rcases he2 with rfl | rfl
  · dsimp only
    refine ⟨?_, by omega, by omega, hn⟩
    rw [wm, min_eq_left (le_of_lt hlt), max_eq_right (le_of_lt hlt)]
  · dsimp only
    refine ⟨?_, by omega, hn, by omega⟩
    rw [wm, min_comm, max_comm, min_eq_left (le_of_lt hlt),
      max_eq_right (le_of_lt hlt)]

theorem completeW_edges_dir (n : ℕ) (w : ℕ → ℕ → ℚ) (attr : ℕ → PyVal)
    (a b : ℕ) :
    (∃ e ∈ (completeW n w attr).edges, e.1 = a ∧ e.2.1 = b) ↔
      (a ≠ b ∧ a < n ∧ b < n) := by
  constructor
  · rintro ⟨e, he, rfl, rfl⟩
    exact (completeW_edges_val n w attr e he).2
  · rintro ⟨hab, ha, hb⟩
    by_cases hlt : a < b
    · refine ⟨(a, b, w a b), ?_, rfl, rfl⟩
      simp only [completeW, List.mem_flatMap]
      exact ⟨(a, b), (mem_completePairs n (a, b)).2 ⟨hlt, hb⟩, by simp⟩
    · have hlt2 : b < a := by omega
      refine ⟨(a, b, w b a), ?_, rfl, rfl⟩
      simp only [completeW, List.mem_flatMap]
      exact ⟨(b, a), (mem_completePairs n (b, a)).2 ⟨hlt2, ha⟩, by simp⟩

theorem edgeW_completeW (n : ℕ) (w : ℕ → ℕ → ℚ) (attr : ℕ → PyVal)
    (a b : ℕ) :
    edgeW (completeW n w attr) a b =
      if a ≠ b ∧ a < n ∧ b < n then some (wm w a b) else none := by
  by_cases hvalid : a ≠ b ∧ a < n ∧ b < n
  · rw [if_pos hvalid]
    obtain ⟨e, he, h1, h2⟩ := (completeW_edges_dir n w attr a b).2 hvalid
    have hsome : ((completeW n w attr).edges.find?
        (fun e => e.1 == a && e.2.1 == b)).isSome := by
      rw [List.find?_isSome]
      exact ⟨e, he, by simp [h1, h2]⟩
    rw [edgeW]
    cases hfind : (completeW n w attr).edges.find?
        (fun e => e.1 == a && e.2.1 == b) with
    | none => exact absurd (hfind ▸ hsome) (by simp)
    | some e2 =>
        have hmem := List.mem_of_find?_eq_some hfind
        have hpred := List.find?_some hfind
        simp only [Bool.and_eq_true, beq_iff_eq] at hpred
        have hval := (completeW_edges_val n w attr e2 hmem).1
        show some e2.2.2 = some (wm w a b)
        rw [hval, hpred.1, hpred.2]
  · rw [if_neg hvalid, edgeW]
    cases hfind : (completeW n w attr).edges.find?
        (fun e => e.1 == a && e.2.1 == b) with
    | none => rfl
    | some e2 =>
        have hmem := List.mem_of_find?_eq_some hfind
        have hpred := List.find?_some hfind
        simp only [Bool.and_eq_true, beq_iff_eq] at hpred
        exact absurd ((completeW_edges_dir n w attr a b).1
          ⟨e2, hmem, hpred.1, hpred.2⟩) hvalid

theorem hasEdge_eq_isSome (g : Graph) (u v : ℕ) :
    hasEdge g u v = (edgeW g u v).isSome := by
  rw [hasEdge, edgeW]
  by_cases h : ∃ e ∈ g.edges, (e.1 == u && e.2.1 == v) = true
  · have h1 : g.edges.any (fun e => e.1 == u && e.2.1 == v) = true :=
      List.any_eq_true.2 h
    have h2 : (g.edges.find? (fun e => e.1 == u && e.2.1 == v)).isSome :=
      List.find?_isSome.2 h
    cases hfind : g.edges.find? (fun e => e.1 == u && e.2.1 == v) with
    | none => exact absurd (hfind ▸ h2) (by simp)
    | some e => rw [h1]; rfl
  · have h1 : g.edges.any (fun e => e.1 == u && e.2.1 == v) = false := by
      rw [← Bool.not_eq_true, List.any_eq_true]
      exact h
    have h2 : g.edges.find? (fun e => e.1 == u && e.2.1 == v) = none := by
      rw [List.find?_eq_none]
      intro x hx hpx
      exact h ⟨x, hx, hpx⟩
    rw [h1, h2]
    rfl

set_option maxHeartbeats 1000000 in
/-- Effect of `add_edge` + weight write on the edge observation, for graphs
whose present edges are exactly the symmetric pair set `done` carrying the
weights `wm w`. -/
theorem addEdgeW_edgeW (G : Graph) (done : List (ℕ × ℕ)) (w : ℕ → ℕ → ℚ)
    (hinv : ∀ a b : ℕ,
      edgeW G a b = if (a, b) ∈ done then some (wm w a b) else none)
    (hsym : ∀ a b : ℕ, (a, b) ∈ done ↔ (b, a) ∈ done)
    (u v : ℕ) (huv : u ≠ v) (a b : ℕ) :
    edgeW (addEdgeW G u v (wm w u v)) a b =
      if (a, b) ∈ (u, v) :: (v, u) :: done then some (wm w a b) else none := by
  by_cases hmem : (u, v) ∈ done
  · have hhe : hasEdge G u v = true := by
      rw [hasEdge_eq_isSome, hinv, if_pos hmem]
      rfl
    rw [addEdgeW, hhe]
    rw [if_pos rfl]
    show ((G.edges.map (fun e =>
        if (e.1 == u && e.2.1 == v) || (e.1 == v && e.2.1 == u) then
          (e.1, e.2.1, wm w u v) else e)).find?
        (fun e => e.1 == a && e.2.1 == b)).map (fun e => e.2.2) = _
    rw [List.find?_map]
    have hcomp : ((fun e : ℕ × ℕ × ℚ => e.1 == a && e.2.1 == b) ∘
        (fun e : ℕ × ℕ × ℚ =>
          if (e.1 == u && e.2.1 == v) || (e.1 == v && e.2.1 == u) then
            (e.1, e.2.1, wm w u v) else e)) =
        (fun e : ℕ × ℕ × ℚ => e.1 == a && e.2.1 == b) := by
      funext e
      by_cases hc : ((e.1 == u && e.2.1 == v) || (e.1 == v && e.2.1 == u)) =
          true
      · simp only [Function.comp_apply, hc, if_pos]
      · simp only [Function.comp_apply, if_neg hc]
    rw [hcomp]
    cases hfind : G.edges.find? (fun e => e.1 == a && e.2.1 == b) with
    | none =>
        have hedge : edgeW G a b = none := by
          rw [edgeW, hfind]
          rfl
        have hno : (a, b) ∉ done := by
          intro hm
          rw [hinv, if_pos hm] at hedge
          exact Option.noConfusion hedge
        have h1 : (a, b) ≠ (u, v) := fun he => hno (he ▸ hmem)
        have h2 : (a, b) ≠ (v, u) := by
          intro he
          have hvu : (v, u) ∈ done := (hsym u v).1 hmem
          exact hno (he ▸ hvu)
        have hcond : (a, b) ∉ (u, v) :: (v, u) :: done := by
          intro hm
          rcases List.mem_cons.1 hm with he | hm2
          · exact h1 he
          · rcases List.mem_cons.1 hm2 with he | hm3
            · exact h2 he
            · exact hno hm3
        rw [if_neg hcond]
        rfl
    | some e =>
        have hpred := List.find?_some hfind
        simp only [Bool.and_eq_true, beq_iff_eq] at hpred
        have hedge : edgeW G a b = some e.2.2 := by
          rw [edgeW, hfind]
          rfl
        have hmem2 : (a, b) ∈ done := by
          by_contra hno
          rw [hinv, if_neg hno] at hedge
          exact Option.noConfusion hedge
        have hvale : e.2.2 = wm w a b := by
          rw [hinv, if_pos hmem2] at hedge
          exact (Option.some.inj hedge).symm
        have hmem3 : (a, b) ∈ (u, v) :: (v, u) :: done :=
          List.mem_cons.2 (Or.inr (List.mem_cons.2 (Or.inr hmem2)))
        rw [if_pos hmem3]
        by_cases hfc : ((e.1 == u && e.2.1 == v) || (e.1 == v && e.2.1 == u))
            = true
        · show some (if (e.1 == u && e.2.1 == v) || (e.1 == v && e.2.1 == u)
              then (e.1, e.2.1, wm w u v) else e).2.2 = some (wm w a b)
          rw [if_pos hfc]
          simp only [Bool.or_eq_true, Bool.and_eq_true, beq_iff_eq] at hfc
          rcases hfc with ⟨he1, he2⟩ | ⟨he1, he2⟩
          · rw [← he1, ← he2, hpred.1, hpred.2]
          · show some (wm w u v) = some (wm w a b)
            rw [wm_comm w u v, ← he1, ← he2, hpred.1, hpred.2]
        · show some (if (e.1 == u && e.2.1 == v) || (e.1 == v && e.2.1 == u)
              then (e.1, e.2.1, wm w u v) else e).2.2 = some (wm w a b)
          rw [if_neg hfc, hvale]
  · have hhe : hasEdge G u v = false := by
      rw [hasEdge_eq_isSome, hinv, if_neg hmem]
      rfl
    rw [addEdgeW, hhe]
    rw [if_neg (by simp)]
    show ((G.edges ++ [(u, v, wm w u v), (v, u, wm w u v)]).find?
        (fun e => e.1 == a && e.2.1 == b)).map (fun e => e.2.2) = _
    rw [List.find?_append]
    cases hfind : G.edges.find? (fun e => e.1 == a && e.2.1 == b) with
    | some e =>
        have hpred := List.find?_some hfind
        simp only [Bool.and_eq_true, beq_iff_eq] at hpred
        have hedge : edgeW G a b = some e.2.2 := by
          rw [edgeW, hfind]
          rfl
        have hmem2 : (a, b) ∈ done := by
          by_contra hno
          rw [hinv, if_neg hno] at hedge
          exact Option.noConfusion hedge
        have hvale : e.2.2 = wm w a b := by
          rw [hinv, if_pos hmem2] at hedge
          exact (Option.some.inj hedge).symm
        have hmem3 : (a, b) ∈ (u, v) :: (v, u) :: done :=
          List.mem_cons.2 (Or.inr (List.mem_cons.2 (Or.inr hmem2)))
        rw [if_pos hmem3]
        show some e.2.2 = some (wm w a b)
        rw [hvale]
    | none =>
        rw [Option.none_or]
        have hedge : edgeW G a b = none := by
          rw [edgeW, hfind]
          rfl
        have hno : (a, b) ∉ done := by
          intro hm
          rw [hinv, if_pos hm] at hedge
          exact Option.noConfusion hedge
        by_cases h1 : a = u ∧ b = v
        · rw [if_pos (List.mem_cons.2 (Or.inl (by rw [h1.1, h1.2])))]
          rw [List.find?_cons_of_pos _ (by simp [h1.1, h1.2])]
          show some (wm w u v) = some (wm w a b)
          rw [h1.1, h1.2]
        · by_cases h2 : a = v ∧ b = u
          · rw [if_pos (List.mem_cons.2 (Or.inr (List.mem_cons.2
              (Or.inl (by rw [h2.1, h2.2])))))]
            rw [List.find?_cons_of_neg _ (by
                simp only [Bool.and_eq_true, beq_iff_eq, not_and]
                intro hua
                exact absurd (hua.trans h2.1) huv),
              List.find?_cons_of_pos _ (by simp [h2.1, h2.2])]
            show some (wm w u v) = some (wm w a b)
            rw [wm_comm w u v, ← h2.1, ← h2.2]
          · have hcond : (a, b) ∉ (u, v) :: (v, u) :: done := by
              intro hm
              rcases List.mem_cons.1 hm with he | hm2
              · exact h1 ⟨(Prod.ext_iff.1 he).1, (Prod.ext_iff.1 he).2⟩
              · rcases List.mem_cons.1 hm2 with he | hm3
                · exact h2 ⟨(Prod.ext_iff.1 he).1, (Prod.ext_iff.1 he).2⟩
                · exact hno hm3
            rw [if_neg hcond]
            rw [List.find?_cons_of_neg _ (by
                simp only [Bool.and_eq_true, beq_iff_eq, not_and]
                intro hua hvb
                exact absurd ⟨hua.symm, hvb.symm⟩ h1),
              List.find?_cons_of_neg _ (by
                simp only [Bool.and_eq_true, beq_iff_eq, not_and]
                intro hva hub
                exact absurd ⟨hva.symm, hub.symm⟩ h2)]
            rfl

/-- The per-node k-nearest list: `sorted(graph.neighbors(node),
key=..., reverse=True)[:k]`. -/
def knList (gOrig : Graph) (k : ℤ) (u : ℕ) : List ℕ :=
  pySliceTo k ((neighbors gOrig u).mergeSort
    (fun a b => decide (getW gOrig u b ≤ getW gOrig u a)))

theorem inner_fold_inv (gOrig : Graph) (w : ℕ → ℕ → ℚ) (u : ℕ) :
    ∀ (others : List ℕ) (G : Graph) (done : List (ℕ × ℕ)),
      (∀ a b : ℕ,
        edgeW G a b = if (a, b) ∈ done then some (wm w a b) else none) →
      (∀ a b : ℕ, (a, b) ∈ done ↔ (b, a) ∈ done) →
      (∀ v ∈ others, v ≠ u ∧ getW gOrig u v = wm w u v) →
      ∃ done2 : List (ℕ × ℕ),
        (∀ a b : ℕ, edgeW ((others.foldl (fun st2 other =>
            (addEdgeW st2.1 u other (getW st2.2 u other), st2.2))
            (G, gOrig)).1) a b =
          if (a, b) ∈ done2 then some (wm w a b) else none) ∧
        (∀ a b : ℕ, (a, b) ∈ done2 ↔ (b, a) ∈ done2) ∧
        (∀ a b : ℕ, (a, b) ∈ done2 ↔
          ((a, b) ∈ done ∨ (a = u ∧ b ∈ others) ∨ (b = u ∧ a ∈ others))) := by
  intro others
  induction others with
  | nil =>
      intro G done hinv hsym hok
      exact ⟨done, hinv, hsym, by simp⟩
  | cons v vs ih =>
      intro G done hinv hsym hok
      obtain ⟨hvne, hvW⟩ := hok v (by simp)
      rw [List.foldl_cons]
      have hstep : ∀ a b : ℕ,
          edgeW (addEdgeW G u v (getW gOrig u v)) a b =
            if (a, b) ∈ (u, v) :: (v, u) :: done then some (wm w a b)
            else none := by
        rw [hvW]
        intro a b
        exact addEdgeW_edgeW G done w hinv hsym u v (Ne.symm hvne) a b
      have hsym2 : ∀ a b : ℕ, (a, b) ∈ (u, v) :: (v, u) :: done ↔
          (b, a) ∈ (u, v) :: (v, u) :: done := by
        intro a b
        have h1 := hsym a b
        have h2 := hsym b a
        simp only [List.mem_cons, Prod.mk.injEq]
        tauto
      obtain ⟨done2, hinv2, hsym3, hmem2⟩ :=
        ih (addEdgeW G u v (getW gOrig u v)) ((u, v) :: (v, u) :: done)
          hstep hsym2 (fun x hx => hok x (by simp [hx]))
      refine ⟨done2, hinv2, hsym3, ?_⟩
      intro a b
      rw [hmem2 a b]
      simp only [List.mem_cons, Prod.mk.injEq]
      tauto

theorem outer_fold_inv (gOrig : Graph) (w : ℕ → ℕ → ℚ) (k : ℤ) :
    ∀ (ns : List ℕ) (G : Graph) (done : List (ℕ × ℕ)),
      (∀ a b : ℕ,
        edgeW G a b = if (a, b) ∈ done then some (wm w a b) else none) →
      (∀ a b : ℕ, (a, b) ∈ done ↔ (b, a) ∈ done) →
      (∀ u ∈ ns, ∀ v ∈ knList gOrig k u, v ≠ u ∧ getW gOrig u v = wm w u v) →
      ∃ done2 : List (ℕ × ℕ),
        (∀ a b : ℕ, edgeW ((ns.foldl (fun st node =>
            (pySliceTo k ((neighbors st.2 node).mergeSort
              (fun a b => decide (getW st.2 node b ≤ getW st.2 node a)))).foldl
              (fun st2 other =>
                (addEdgeW st2.1 node other (getW st2.2 node other), st2.2)) st)
            (G, gOrig)).1) a b =
          if (a, b) ∈ done2 then some (wm w a b) else none) ∧
        (∀ a b : ℕ, (a, b) ∈ done2 ↔
          ((a, b) ∈ done ∨ ∃ u ∈ ns,
            (a = u ∧ b ∈ knList gOrig k u) ∨
            (b = u ∧ a ∈ knList gOrig k u))) := by
  intro ns
  induction ns with
  | nil =>
      intro G done hinv hsym hok
      exact ⟨done, hinv, by simp⟩
  | cons m ms ih =>
      intro G done hinv hsym hok
      simp only [List.foldl_cons]
      obtain ⟨done1, hinv1, hsym1, hmem1⟩ :=
        inner_fold_inv gOrig w m
          (pySliceTo k ((neighbors gOrig m).mergeSort
            (fun a b => decide (getW gOrig m b ≤ getW gOrig m a))))
          G done hinv hsym (hok m (by simp))
      have hsnd : ((pySliceTo k ((neighbors gOrig m).mergeSort
          (fun a b => decide (getW gOrig m b ≤ getW gOrig m a)))).foldl
          (fun st2 other =>
            (addEdgeW st2.1 m other (getW st2.2 m other), st2.2))
          (G, gOrig)).2 = gOrig :=
        foldl_preserves_snd (fun st2 other =>
          (addEdgeW st2.1 m other (getW st2.2 m other), st2.2))
          (fun st a => rfl) _ _
      have hpair : ((pySliceTo k ((neighbors gOrig m).mergeSort
          (fun a b => decide (getW gOrig m b ≤ getW gOrig m a)))).foldl
          (fun st2 other =>
            (addEdgeW st2.1 m other (getW st2.2 m other), st2.2))
          (G, gOrig)) =
          (((pySliceTo k ((neighbors gOrig m).mergeSort
            (fun a b => decide (getW gOrig m b ≤ getW gOrig m a)))).foldl
            (fun st2 other =>
              (addEdgeW st2.1 m other (getW st2.2 m other), st2.2))
            (G, gOrig)).1, gOrig) :=
        Prod.ext_iff.2 ⟨rfl, hsnd⟩
      obtain ⟨done2, hinv2, hmem2⟩ :=
        ih (((pySliceTo k ((neighbors gOrig m).mergeSort
          (fun a b => decide (getW gOrig m b ≤ getW gOrig m a)))).foldl
          (fun st2 other =>
            (addEdgeW st2.1 m other (getW st2.2 m other), st2.2))
          (G, gOrig)).1) done1 hinv1 hsym1
          (fun x hx => hok x (by simp [hx]))
      refine ⟨done2, ?_, ?_⟩
      · intro a b
        rw [hpair]
        exact hinv2 a b
      · intro a b
        rw [hmem2 a b, hmem1 a b]
        simp only [List.mem_cons]
        constructor
        · rintro ((hd | hp) | ⟨u2, hu2, hcase⟩)
          · exact Or.inl hd
          · exact Or.inr ⟨m, Or.inl rfl, hp⟩
          · exact Or.inr ⟨u2, Or.inr hu2, hcase⟩
        · rintro (hd | ⟨u2, hu2m, hcase⟩)
          · exact Or.inl (Or.inl hd)
          · rcases hu2m with rfl | hu2
            · exact Or.inl (Or.inr hcase)
            · exact Or.inr ⟨u2, hu2, hcase⟩

/-! Generic list bookkeeping for the neighbor-list computation. -/

theorem flatMap_congr_mem {α β : Type} (l : List α) (f g : α → List β)
    (h : ∀ a ∈ l, f a = g a) : l.flatMap f = l.flatMap g := by
  induction l with
  | nil => rfl
  | cons a t ih =>
      rw [List.flatMap_cons, List.flatMap_cons, h a (by simp),
        ih (fun x hx => h x (by simp [hx]))]

theorem filter_map_flatMap {α β γ : Type} (l : List α) (f : α → List β)
    (p : β → Bool) (g : β → γ) :
    ((l.flatMap f).filter p).map g =
      l.flatMap (fun a => ((f a).filter p).map g) := by
  induction l with
  | nil => rfl
  | cons a t ih =>
      rw [List.flatMap_cons, List.filter_append, List.map_append, ih,
        List.flatMap_cons]

theorem flatMap_flatMap {α β γ : Type} (l : List α) (f : α → List β)
    (h : β → List γ) :
    (l.flatMap f).flatMap h = l.flatMap (fun a => (f a).flatMap h) := by
  induction l with
  | nil => rfl
  | cons a t ih =>
      rw [List.flatMap_cons, List.flatMap_append, ih, List.flatMap_cons]

theorem map_flatMap_comp {α β γ : Type} (l : List α) (g : α → β)
    (h : β → List γ) :
    (l.map g).flatMap h = l.flatMap (fun a => h (g a)) := by
  induction l with
  | nil => rfl
  | cons a t ih =>
      rw [List.map_cons, List.flatMap_cons, ih, List.flatMap_cons]

theorem flatMap_singleton_id {α : Type} (l : List α) :
    l.flatMap (fun a => [a]) = l := by
  induction l with
  | nil => rfl
  | cons a t ih => rw [List.flatMap_cons, ih]; rfl

theorem flatMap_const_nil {α β : Type} (l : List α) :
    l.flatMap (fun _ => ([] : List β)) = [] := by
  induction l with
  | nil => rfl
  | cons a t ih => rw [List.flatMap_cons, ih]; rfl

theorem flatMap_if_singleton {α : Type} (l : List ℕ) (u : ℕ) (x : α) :
    l.flatMap (fun j => if j = u then [x] else []) =
      (l.filter (fun j => j == u)).map (fun _ => x) := by
  induction l with
  | nil => rfl
  | cons a t ih =>
      by_cases h : a = u
      · subst h
        simp [List.flatMap_cons, ih]
      · simp [List.flatMap_cons, ih, h]

theorem range_decomp (n u : ℕ) (hu : u < n) :
    List.range n = List.range u ++ [u] ++
      (List.range (n - (u + 1))).map (fun t => u + 1 + t) := by
  have h1 : n = (u + 1) + (n - (u + 1)) := by omega
  conv_lhs => rw [h1]
  rw [List.range_add, List.range_succ]

theorem filter_ne_range_lt (u : ℕ) :
    (List.range u).filter (fun j => !(j == u)) = List.range u := by
  rw [List.filter_eq_self]
  intro j hj
  have := List.mem_range.1 hj
  simp
  omega

theorem filter_ne_map (u m : ℕ) :
    ((List.range m).map (fun t => u + 1 + t)).filter (fun j => !(j == u)) =
      (List.range m).map (fun t => u + 1 + t) := by
  rw [List.filter_eq_self]
  intro j hj
  obtain ⟨t, _, rfl⟩ := List.mem_map.1 hj
  simp
  omega

theorem filter_ne_range (n u : ℕ) (hu : u < n) :
    (List.range n).filter (fun j => !(j == u)) =
      List.range u ++ (List.range (n - (u + 1))).map (fun t => u + 1 + t) := by
  rw [range_decomp n u hu, List.filter_append, List.filter_append,
    filter_ne_range_lt, filter_ne_map]
  simp

theorem length_filter_ne_range (n u : ℕ) (hu : u < n) :
    ((List.range n).filter (fun j => !(j == u))).length = n - 1 := by
  rw [filter_ne_range n u hu]
  simp only [List.length_append, List.length_range, List.length_map]
  omega

theorem filter_gt_range_lt (u : ℕ) :
    (List.range u).filter (fun j => decide (u < j)) = [] := by
  rw [List.filter_eq_nil_iff]
  intro j hj
  have := List.mem_range.1 hj
  simp
  omega

theorem filter_gt_map (u m : ℕ) :
    ((List.range m).map (fun t => u + 1 + t)).filter
        (fun j => decide (u < j)) =
      (List.range m).map (fun t => u + 1 + t) := by
  rw [List.filter_eq_self]
  intro j hj
  obtain ⟨t, _, rfl⟩ := List.mem_map.1 hj
  simp
  omega

theorem filter_gt_range (n u : ℕ) (hu : u < n) :
    (List.range n).filter (fun j => decide (u < j)) =
      (List.range (n - (u + 1))).map (fun t => u + 1 + t) := by
  rw [range_decomp n u hu, List.filter_append, List.filter_append,
    filter_gt_range_lt, filter_gt_map]
  simp

theorem filter_range_single (n u : ℕ) (q : ℕ → Bool) (hu : u < n)
    (hq : q u = true) (huniq : ∀ j, q j = true → j = u) :
    (List.range n).filter q = [u] := by
  induction n with
  | zero => omega
  | succ m ih =>
      rw [List.range_succ, List.filter_append]
      by_cases hum : u = m
      · subst hum
        have h1 : (List.range u).filter q = [] := by
          rw [List.filter_eq_nil_iff]
          intro j hj hqj
          have hju := huniq j hqj
          rw [hju] at hj
          exact absurd (List.mem_range.1 hj) (lt_irrefl u)
        rw [h1]
        simp [hq]
      · have hum2 : u < m := by omega
        rw [ih hum2]
        have hm : q m = false := by
          by_cases h : q m = true
          · exact absurd (huniq m h) (fun he => hum he.symm)
          · simp only [Bool.not_eq_true] at h
            exact h
        simp [hm]

/-- `graph.neighbors(u)` on the complete graph lists every other node
`0, …, u-1, u+1, …, n-1` in ascending order: node `u` appears as the second
endpoint of the pairs `(i, u)` for `i < u` (one per block of the pair
iteration) and as the first endpoint of its own block `(u, j)`, `j > u`. -/
theorem neighbors_completeW (n : ℕ) (w : ℕ → ℕ → ℚ) (attr : ℕ → PyVal)
    (u : ℕ) (hu : u < n) :
    neighbors (completeW n w attr) u =
      (List.range n).filter (fun j => !(j == u)) := by
  have h1 : neighbors (completeW n w attr) u =
      (completePairs n).flatMap (fun p =>
        (([(p.1, p.2, w p.1 p.2), (p.2, p.1, w p.1 p.2)]).filter
          (fun e => e.1 == u)).map (fun e => e.2.1)) := by
    simp only [neighbors, completeW]
    exact filter_map_flatMap _ _ _ _
  have h2 : ∀ p ∈ completePairs n,
      (([(p.1, p.2, w p.1 p.2), (p.2, p.1, w p.1 p.2)]).filter
        (fun e => e.1 == u)).map (fun e => e.2.1) =
      (if p.1 = u then [p.2] else if p.2 = u then [p.1] else []) := by
    intro p hp
    have hlt : p.1 < p.2 := ((mem_completePairs n p).1 hp).1
    by_cases ha : p.1 = u
    · have hb : ¬ p.2 = u := by omega
      simp [List.filter_cons, ha, hb]
    · by_cases hb : p.2 = u
      · simp [List.filter_cons, ha, hb]
      · simp [List.filter_cons, ha, hb]
  have h3 : (completePairs n).flatMap (fun p =>
        if p.1 = u then [p.2] else if p.2 = u then [p.1] else []) =
      (List.range n).flatMap (fun i =>
        (((List.range n).filter (fun j => decide (i < j))).map
          (fun j => (i, j))).flatMap (fun p =>
            if p.1 = u then [p.2] else if p.2 = u then [p.1] else [])) := by
    simp only [completePairs]
    exact flatMap_flatMap _ _ _
  have h34 : ∀ i ∈ List.range n,
      (((List.range n).filter (fun j => decide (i < j))).map
          (fun j => (i, j))).flatMap (fun p =>
            if p.1 = u then [p.2] else if p.2 = u then [p.1] else []) =
      (if i = u then (List.range n).filter (fun j => decide (u < j))
        else if i < u then [i] else []) := by
    intro i _
    have hc : (((List.range n).filter (fun j => decide (i < j))).map
          (fun j => (i, j))).flatMap (fun p =>
            if p.1 = u then [p.2] else if p.2 = u then [p.1] else []) =
        ((List.range n).filter (fun j => decide (i < j))).flatMap
          (fun j => if i = u then [j] else if j = u then [i] else []) :=
      map_flatMap_comp _ _ _
    rw [hc]
    by_cases hiu : i = u
    · rw [if_pos hiu]
      have hfun : (fun j => if i = u then [j] else if j = u then [i] else [])
          = (fun j : ℕ => [j]) := by
        funext j
        rw [if_pos hiu]
      rw [hfun, flatMap_singleton_id, hiu]
    · rw [if_neg hiu]
      have hfun : (fun j => if i = u then [j] else if j = u then [i] else [])
          = (fun j : ℕ => if j = u then [i] else []) := by
        funext j
        rw [if_neg hiu]
      rw [hfun, flatMap_if_singleton]
      by_cases hlt : i < u
      · rw [if_pos hlt, List.filter_filter]
        rw [filter_range_single n u _ hu (by simp [hlt])
          (fun j hj => by simp at hj; exact hj.1)]
        rfl
      · rw [if_neg hlt]
        have hnil : ((List.range n).filter
            (fun j => decide (i < j))).filter (fun j => j == u) = [] := by
          rw [List.filter_eq_nil_iff]
          intro j hj
          have hij := (List.mem_filter.1 hj).2
          simp at hij ⊢
          omega
        rw [hnil]
        rfl
  have e5 : (List.range n).flatMap
      (fun i => if i = u then (List.range n).filter (fun j => decide (u < j))
        else if i < u then [i] else []) =
      (List.range n).filter (fun j => !(j == u)) := by
    have hM := filter_gt_range n u hu
    have hfun : (fun i => if i = u then
          (List.range n).filter (fun j => decide (u < j))
        else if i < u then [i] else []) =
        (fun i => if i = u then
          (List.range (n - (u + 1))).map (fun t => u + 1 + t)
        else if i < u then [i] else []) := by
      funext i
      rw [hM]
    rw [hfun, filter_ne_range n u hu]
    conv_lhs => rw [range_decomp n u hu]
    rw [List.flatMap_append, List.flatMap_append]
    have p1 : (List.range u).flatMap
        (fun i => if i = u then
          (List.range (n - (u + 1))).map (fun t => u + 1 + t)
        else if i < u then [i] else []) = List.range u := by
      have hc : ∀ i ∈ List.range u,
          (if i = u then
            (List.range (n - (u + 1))).map (fun t => u + 1 + t)
          else if i < u then [i] else []) = [i] := by
        intro i hi
        have hiu := List.mem_range.1 hi
        rw [if_neg (by omega), if_pos hiu]
      rw [flatMap_congr_mem _ _ _ hc, flatMap_singleton_id]
    have p2 : ([u]).flatMap
        (fun i => if i = u then
          (List.range (n - (u + 1))).map (fun t => u + 1 + t)
        else if i < u then [i] else []) =
        (List.range (n - (u + 1))).map (fun t => u + 1 + t) := by
      rw [List.flatMap_cons, List.flatMap_nil, List.append_nil, if_pos rfl]
    have p3 : ((List.range (n - (u + 1))).map (fun t => u + 1 + t)).flatMap
        (fun i => if i = u then
          (List.range (n - (u + 1))).map (fun t => u + 1 + t)
        else if i < u then [i] else []) = [] := by
      have hA : ((List.range (n - (u + 1))).map
          (fun t => u + 1 + t)).flatMap
          (fun i => if i = u then
            (List.range (n - (u + 1))).map (fun t => u + 1 + t)
          else if i < u then [i] else []) =
          (List.range (n - (u + 1))).flatMap
          (fun t => if u + 1 + t = u then
            (List.range (n - (u + 1))).map (fun s => u + 1 + s)
          else if u + 1 + t < u then [u + 1 + t] else []) :=
        map_flatMap_comp _ _ _
      rw [hA]
      have hc : ∀ t ∈ List.range (n - (u + 1)),
          (if u + 1 + t = u then
            (List.range (n - (u + 1))).map (fun s => u + 1 + s)
          else if u + 1 + t < u then [u + 1 + t] else []) =
          ([] : List ℕ) := by
        intro t _
        rw [if_neg (by omega), if_neg (by omega)]
      rw [flatMap_congr_mem _ _ _ hc, flatMap_const_nil]
    rw [p1, p2, p3, List.append_nil]
  rw [h1, flatMap_congr_mem _ _ _ h2, h3, flatMap_congr_mem _ _ _ h34, e5]

theorem mem_neighbors_completeW (n : ℕ) (w : ℕ → ℕ → ℚ) (attr : ℕ → PyVal)
    (u v : ℕ) (hu : u < n) :
    v ∈ neighbors (completeW n w attr) u ↔ (v < n ∧ v ≠ u) := by
  rw [neighbors_completeW n w attr u hu]
  simp [List.mem_filter, List.mem_range]

theorem length_neighbors_completeW (n : ℕ) (w : ℕ → ℕ → ℚ)
    (attr : ℕ → PyVal) (u : ℕ) (hu : u < n) :
    (neighbors (completeW n w attr) u).length = n - 1 := by
  rw [neighbors_completeW n w attr u hu, length_filter_ne_range n u hu]

theorem getW_eq_getD (g : Graph) (u v : ℕ) :
    getW g u v = (edgeW g u v).getD 0 := rfl

theorem getW_completeW (n : ℕ) (w : ℕ → ℕ → ℚ) (attr : ℕ → PyVal)
    (a b : ℕ) (hab : a ≠ b) (ha : a < n) (hb : b < n) :
    getW (completeW n w attr) a b = wm w a b := by
  rw [getW_eq_getD, edgeW_completeW n w attr a b, if_pos ⟨hab, ha, hb⟩]
  rfl

theorem nodeIds_completeW (n : ℕ) (w : ℕ → ℕ → ℚ) (attr : ℕ → PyVal) :
    nodeIds (completeW n w attr) = List.range n := by
  simp only [nodeIds, completeW, List.map_map]
  exact List.map_id _

theorem pySliceTo_zero {α : Type} (l : List α) : pySliceTo 0 l = [] := by
  simp [pySliceTo]

theorem foldl_const {α β : Type} (f : β → α → β) (h : ∀ st a, f st a = st) :
    ∀ (l : List α) (st : β), l.foldl f st = st := by
  intro l
  induction l with
  | nil => intro st; rfl
  | cons a t ih => intro st; rw [List.foldl_cons, h, ih]

theorem foldl_invariant {α β : Type} (P : β → Prop) (f : β → α → β)
    (h : ∀ st a, P st → P (f st a)) :
    ∀ (l : List α) (st : β), P st → P (l.foldl f st) := by
  intro l
  induction l with
  | nil => intro st hst; exact hst
  | cons a t ih => intro st hst; rw [List.foldl_cons]; exact ih _ (h st a hst)

theorem addEdgeW_nodes (g : Graph) (u v : ℕ) (q : ℚ) :
    (addEdgeW g u v q).nodes = g.nodes := by
  unfold addEdgeW
  split <;> rfl

theorem sparsify_nodes (g : Graph) (k : ℤ) :
    (sparsify_graph g k).nodes = g.nodes := by
  unfold sparsify_graph sparsifyS
  refine foldl_invariant
    (fun st : Graph × Graph => st.1.nodes = g.nodes) _ ?_ _ _ rfl
  intro st node hst
  refine foldl_invariant
    (fun st2 : Graph × Graph => st2.1.nodes = g.nodes) _ ?_ _ _ hst
  intro st2 other h2
  show (addEdgeW st2.1 node other (getW st2.2 node other)).nodes = g.nodes
  rw [addEdgeW_nodes, h2]

theorem mem_knList_sub (g : Graph) (k : ℤ) (u v : ℕ) (hk : 0 ≤ k)
    (hv : v ∈ knList g k u) : v ∈ neighbors g u := by
  unfold knList pySliceTo at hv
  rw [if_pos hk] at hv
  have h1 := List.mem_of_mem_take hv
  exact (List.mergeSort_perm _ _).mem_iff.1 h1

/-- When `k ≥ n - 1`, the slice `sorted(...)[:k]` keeps every neighbor, so
`sparsify_graph` rebuilds every edge of the complete graph with its stored
weight. -/
theorem sparsify_edges_large_k (n : ℕ) (w : ℕ → ℕ → ℚ) (attr : ℕ → PyVal)
    (k : ℤ) (hk : (n : ℤ) - 1 ≤ k) (a b : ℕ) :
    edgeW (sparsify_graph (completeW n w attr) k) a b =
      edgeW (completeW n w attr) a b := by
  rcases Nat.eq_zero_or_pos n with rfl | hn
  · rfl
  have h0k : 0 ≤ k := by omega
  have hids : nodeIds (completeW n w attr) = List.range n :=
    nodeIds_completeW n w attr
  have hbase : ∀ a b : ℕ,
      edgeW { completeW n w attr with edges := [] } a b =
        if (a, b) ∈ ([] : List (ℕ × ℕ)) then some (wm w a b) else none := by
    intro a b
    simp [edgeW]
  have hsymbase : ∀ a b : ℕ,
      (a, b) ∈ ([] : List (ℕ × ℕ)) ↔ (b, a) ∈ ([] : List (ℕ × ℕ)) := by
    simp
  have hok : ∀ u ∈ nodeIds (completeW n w attr),
      ∀ v ∈ knList (completeW n w attr) k u,
        v ≠ u ∧ getW (completeW n w attr) u v = wm w u v := by
    intro u hu v hv
    rw [hids] at hu
    have hun : u < n := List.mem_range.1 hu
    have hvn : v ∈ neighbors (completeW n w attr) u :=
      mem_knList_sub _ k u v h0k hv
    obtain ⟨hv1, hv2⟩ := (mem_neighbors_completeW n w attr u v hun).1 hvn
    exact ⟨hv2, getW_completeW n w attr u v (Ne.symm hv2) hun hv1⟩
  obtain ⟨done2, hinv2, hmem2⟩ :=
    outer_fold_inv (completeW n w attr) w k (nodeIds (completeW n w attr))
      { completeW n w attr with edges := [] } [] hbase hsymbase hok
  have hL : edgeW (sparsify_graph (completeW n w attr) k) a b =
      if (a, b) ∈ done2 then some (wm w a b) else none := hinv2 a b
  have hfull : ∀ c d : ℕ, c ≠ d → c < n → d < n →
      d ∈ knList (completeW n w attr) k c := by
    intro c d hcd hc hd
    unfold knList pySliceTo
    rw [if_pos h0k]
    have hlen : ((neighbors (completeW n w attr) c).mergeSort
        (fun a b => decide (getW (completeW n w attr) c b ≤
          getW (completeW n w attr) c a))).length = n - 1 := by
      rw [List.length_mergeSort, length_neighbors_completeW n w attr c hc]
    rw [List.take_of_length_le (by rw [hlen]; omega)]
    exact (List.mergeSort_perm _ _).mem_iff.2
      ((mem_neighbors_completeW n w attr c d hc).2 ⟨hd, Ne.symm hcd⟩)
  have hiff : (a, b) ∈ done2 ↔ (a ≠ b ∧ a < n ∧ b < n) := by
    constructor
    · intro h
      rcases (hmem2 a b).1 h with h0 | ⟨u, hu, hcase⟩
      · exact absurd h0 (List.not_mem_nil _)
      · rw [hids] at hu
        have hun : u < n := List.mem_range.1 hu
        rcases hcase with ⟨ha2, hb2⟩ | ⟨hb2, ha2⟩
        · obtain ⟨hv1, hv2⟩ := (mem_neighbors_completeW n w attr u b hun).1
            (mem_knList_sub _ k u b h0k hb2)
          exact ⟨ha2 ▸ Ne.symm hv2, ha2 ▸ hun, hv1⟩
        · obtain ⟨hv1, hv2⟩ := (mem_neighbors_completeW n w attr u a hun).1
            (mem_knList_sub _ k u a h0k ha2)
          exact ⟨hb2 ▸ hv2, hv1, hb2 ▸ hun⟩
    · rintro ⟨hab, han, hbn⟩
      apply (hmem2 a b).2
      right
      exact ⟨a, by rw [hids]; exact List.mem_range.2 han,
        Or.inl ⟨rfl, hfull a b hab han hbn⟩⟩
  rw [hL, edgeW_completeW n w attr a b]
  by_cases hc : (a, b) ∈ done2
  · rw [if_pos hc, if_pos (hiff.1 hc)]
  · rw [if_neg hc, if_neg (fun hx => hc (hiff.2 hx))]

theorem sparsify_zero (g : Graph) :
    sparsify_graph g 0 = { g with edges := [] } := by
  unfold sparsify_graph sparsifyS
  have hstep : ∀ (st : Graph × Graph) (node : ℕ),
      (pySliceTo 0 ((neighbors st.2 node).mergeSort
        (fun a b => decide (getW st.2 node b ≤ getW st.2 node a)))).foldl
        (fun st2 other =>
          (addEdgeW st2.1 node other (getW st2.2 node other), st2.2)) st
        = st := by
    intro st node
    rw [pySliceTo_zero]
    rfl
  rw [foldl_const _ hstep]

/-- C7: on a complete weighted graph with `n` nodes, `sparsify_graph` with
`k = n - 1` returns a graph with the same edge observations (presence and
weight of every directed adjacency entry) and the same nodes as the input,
and with `k = 0` a graph with the same nodes and no edges. -/
theorem C7_sparsify_extremes (n : ℕ) (w : ℕ → ℕ → ℚ) (attr : ℕ → PyVal) :
    (∀ a b : ℕ,
      edgeW (sparsify_graph (completeW n w attr) ((n : ℤ) - 1)) a b =
        edgeW (completeW n w attr) a b) ∧
    (sparsify_graph (completeW n w attr) ((n : ℤ) - 1)).nodes =
      (completeW n w attr).nodes ∧
    (sparsify_graph (completeW n w attr) 0).edges = [] ∧
    (sparsify_graph (completeW n w attr) 0).nodes =
      (completeW n w attr).nodes := by
  refine ⟨fun a b => sparsify_edges_large_k n w attr _ (le_refl _) a b,
    sparsify_nodes _ _, ?_, sparsify_nodes _ _⟩
  rw [sparsify_zero]

/-- C10 counterexample: `sparsify_graph` with the out-of-range `k = 5` on a
complete graph with 2 nodes does not fail; it returns a graph that still
contains the edge `(0, 1)` with its weight. -/
theorem C10_counterexample :
    edgeW (sparsify_graph
      (completeW 2 (fun _ _ => 1) (fun _ => PyVal.tup [])) 5) 0 1 =
      some 1 := by
  rw [sparsify_edges_large_k 2 (fun _ _ => 1) (fun _ => PyVal.tup []) 5
    (by decide) 0 1]
  rfl

/-- C10 (amended): `sparsify_graph` performs no range validation on `k`.
For every `k ≥ n - 1` (in particular every out-of-range `k ≥ n`) on a
complete weighted graph it returns normally, with the input's edge
observations and nodes unchanged, instead of raising an error. -/
theorem C10_amended_no_range_check (n : ℕ) (w : ℕ → ℕ → ℚ)
    (attr : ℕ → PyVal) (k : ℤ) (hk : (n : ℤ) - 1 ≤ k) :
    (∀ a b : ℕ, edgeW (sparsify_graph (completeW n w attr) k) a b =
      edgeW (completeW n w attr) a b) ∧
    (sparsify_graph (completeW n w attr) k).nodes =
      (completeW n w attr).nodes :=
  ⟨fun a b => sparsify_edges_large_k n w attr k hk a b,
    sparsify_nodes _ _⟩

theorem C10_amended_no_range_check_witness :
    ((2 : ℤ) - 1 ≤ 5) ∧
    ((∀ a b : ℕ, edgeW (sparsify_graph (completeW 2 (fun _ _ => 1)
        (fun _ => PyVal.tup [])) 5) a b =
      edgeW (completeW 2 (fun _ _ => 1) (fun _ => PyVal.tup [])) a b) ∧
    (sparsify_graph (completeW 2 (fun _ _ => 1)
        (fun _ => PyVal.tup [])) 5).nodes =
      (completeW 2 (fun _ _ => 1) (fun _ => PyVal.tup [])).nodes) :=
  ⟨by decide, C10_amended_no_range_check 2 (fun _ _ => 1)
    (fun _ => PyVal.tup []) 5 (by decide)⟩

end BookGraphs
